import Mathlib

set_option maxRecDepth 8000

/-!
Verification development for the retrieval pipeline of the pdf-explainer
repository (`app/retrieval.py`, `app/funcs.py`).

Python strings are modelled as `List Char` (sequences of code points).
Python `int` is modelled as `Int`.  Every function is embedded as an
executable, structurally recursive Lean definition; scanners that consume a
variable number of characters per step carry a `Nat` fuel argument that is
initialised to `length + 1`; since every step consumes at least one input
character, the fuel can never run out on the initial call, so the fuel-zero
branches are unreachable and the definitions agree with the Python originals.
-/

namespace PdfRag

abbrev Str := List Char

/-- Python's whitespace class (`str.isspace`, regex `\s` for `str` patterns):
ASCII whitespace, the C1 and Unicode space characters. -/
def pyIsSpace (c : Char) : Bool :=
  let n := c.toNat
  n = 0x20 || n = 0x09 || n = 0x0a || n = 0x0d || n = 0x0b || n = 0x0c ||
  (decide (0x1c ≤ n) && decide (n ≤ 0x1f)) || n = 0x85 || n = 0xa0 ||
  n = 0x1680 || (decide (0x2000 ≤ n) && decide (n ≤ 0x200a)) ||
  n = 0x2028 || n = 0x2029 || n = 0x202f || n = 0x205f || n = 0x3000

/-- Python `str.lstrip()`. -/
def pyStripLeft (s : Str) : Str := s.dropWhile pyIsSpace

/-- Python `str.rstrip()`. -/
def pyStripRight (s : Str) : Str := (s.reverse.dropWhile pyIsSpace).reverse

/-- Python `str.strip()`. -/
def pyStrip (s : Str) : Str := pyStripRight (pyStripLeft s)

/-- Python `str.strip('\n')`. -/
def pyStripNL (s : Str) : Str :=
  ((s.dropWhile (· = '\n')).reverse.dropWhile (· = '\n')).reverse

/-- `unicodedata.normalize('NFKD', ·)`, modelled character-wise: a small
representative table of compatibility decompositions, identity elsewhere.
NFKD is the identity on every ASCII character, and all texts handled in this
development are ASCII apart from the punctuation that `clean_text` itself
rewrites (curly quotes, bullets, zero-width characters), none of which NFKD
decomposes. -/
def nfkdChar (c : Char) : Str :=
  if c = 'ﬁ' then ['f', 'i']
  else if c = 'ﬂ' then ['f', 'l']
  else if c = ' ' then [' ']
  else [c]

/-- `unicodedata.normalize('NFKD', text)`. -/
def nfkd (s : Str) : Str := s.foldr (fun c acc => nfkdChar c ++ acc) []

/-- Python regex `\w` (on ASCII; all inputs in this development are ASCII). -/
def isWordChar (c : Char) : Bool := c.isAlphanum || c = '_'

/-- `re.sub(r'(\w+)-\s*\n\s*(\w+)', r'\1\2', ·)`: rejoin words hyphenated
across a line break.  At a word character, the maximal word run must be
followed by `-`, then a whitespace run containing at least one newline, then
another word character; the whole match is replaced by the two word runs and
scanning continues after the second run (so chained artifacts such as
`a-\nb-\nc` are only rejoined one level per pass). -/
def fixHyphenF : Nat → Str → Str
  | 0, s => s
  | _ + 1, [] => []
  | f + 1, c :: rest =>
    if isWordChar c then
      match rest.dropWhile isWordChar with
      | '-' :: rest2 =>
        let ws := rest2.takeWhile pyIsSpace
        let afterWs := rest2.dropWhile pyIsSpace
        if ws.contains '\n' && (afterWs.headD ' ' |> isWordChar) then
          (c :: rest.takeWhile isWordChar) ++ afterWs.takeWhile isWordChar ++
            fixHyphenF f (afterWs.dropWhile isWordChar)
        else c :: fixHyphenF f rest
      | _ => c :: fixHyphenF f rest
    else c :: fixHyphenF f rest

/-- `re.sub(r'<t>{k,}', repl, ·)` for a single-character class: every maximal
run of `t` of length at least `k` is replaced by `repl`, shorter runs are
kept.  With `k = 1` this is `re.sub(r'<t>+', repl, ·)`. -/
def capRunsF (t : Char) (k : Nat) (repl : Str) : Nat → Str → Str
  | 0, s => s
  | _ + 1, [] => []
  | f + 1, c :: rest =>
    if c = t then
      (if k ≤ ((c :: rest).takeWhile (· = t)).length then repl
       else (c :: rest).takeWhile (· = t)) ++
        capRunsF t k repl f ((c :: rest).dropWhile (· = t))
    else c :: capRunsF t k repl f rest

/-- `re.sub(r'\n +', '\n', ·)`: remove spaces after newlines. -/
def dropSpacesAfterNLF : Nat → Str → Str
  | 0, s => s
  | _ + 1, [] => []
  | f + 1, '\n' :: rest => '\n' :: dropSpacesAfterNLF f (rest.dropWhile (· = ' '))
  | f + 1, c :: rest => c :: dropSpacesAfterNLF f rest

/-- `re.sub(r' +\n', '\n', ·)`: remove spaces before newlines. -/
def dropSpacesBeforeNLF : Nat → Str → Str
  | 0, s => s
  | _ + 1, [] => []
  | f + 1, ' ' :: rest =>
    (match rest.dropWhile (· = ' ') with
     | '\n' :: rest3 => '\n' :: dropSpacesBeforeNLF f rest3
     | _ => ' ' :: dropSpacesBeforeNLF f rest)
  | f + 1, c :: rest => c :: dropSpacesBeforeNLF f rest

/-- `re.sub(r'\r\n', '\n', ·)`. -/
def crlfF : Nat → Str → Str
  | 0, s => s
  | _ + 1, [] => []
  | f + 1, '\r' :: '\n' :: rest => '\n' :: crlfF f rest
  | f + 1, c :: rest => c :: crlfF f rest

/-- Index of the last `'\n'` in `l` (meaningful only when `l` contains one). -/
def lastNLIdx (l : Str) : Nat :=
  l.length - 1 - (l.reverse.takeWhile (· ≠ '\n')).length

/-- `re.sub(r'\n\s*<cls>+\s*\n', '\n', ·)`: remove lines consisting solely of
characters of `cls` (page numbers for `cls = digit`, Roman numerals for the
Roman letter class).  Matching follows the regex engine: after the leading
newline, the first `\s*` greedily takes the whole whitespace run, `<cls>+`
takes the following maximal nonempty class run, and `\s*\n` consumes the next
whitespace run up to its last newline.  The match is replaced by a single
newline and scanning resumes after the consumed final newline. -/
def dropStandaloneF (cls : Char → Bool) : Nat → Str → Str
  | 0, s => s
  | _ + 1, [] => []
  | f + 1, c :: rest =>
    if c = '\n' then
      let r1 := rest.dropWhile pyIsSpace
      let d := r1.takeWhile cls
      if d.isEmpty then '\n' :: dropStandaloneF cls f rest
      else
        let r2raw := r1.dropWhile cls
        let r2 := r2raw.takeWhile pyIsSpace
        if r2.contains '\n' then
          '\n' :: dropStandaloneF cls f (r2raw.drop (lastNLIdx r2 + 1))
        else '\n' :: dropStandaloneF cls f rest
    else c :: dropStandaloneF cls f rest

/-- The character class `[ivxlcdm]` with `re.IGNORECASE`. -/
def isRomanChar (c : Char) : Bool := ("ivxlcdmIVXLCDM".data).contains c

/-- `re.sub(r' +\| +', ' | ', ·)`: normalize spacing around table pipes. -/
def pipeSpacesF : Nat → Str → Str
  | 0, s => s
  | _ + 1, [] => []
  | f + 1, ' ' :: rest =>
    (match rest.dropWhile (· = ' ') with
     | '|' :: ' ' :: r3 => ' ' :: '|' :: ' ' :: pipeSpacesF f (r3.dropWhile (· = ' '))
     | _ => ' ' :: pipeSpacesF f rest)
  | f + 1, c :: rest => c :: pipeSpacesF f rest

/-- `re.sub(r'^\| +', '| ', ·, flags = re.MULTILINE)`.  The Boolean argument
records whether the scan position is at a line start. -/
def pipeLineStartF : Nat → Bool → Str → Str
  | 0, _, s => s
  | _ + 1, _, [] => []
  | f + 1, atStart, c :: rest =>
    if atStart && c = '|' && rest.headD 'x' = ' ' then
      '|' :: ' ' :: pipeLineStartF f false (rest.dropWhile (· = ' '))
    else c :: pipeLineStartF f (decide (c = '\n')) rest

/-- `re.sub(r' +\|$', ' |', ·, flags = re.MULTILINE)` (`$` is zero-width:
the newline is not consumed). -/
def pipeLineEndF : Nat → Str → Str
  | 0, s => s
  | _ + 1, [] => []
  | f + 1, ' ' :: rest =>
    (match rest.dropWhile (· = ' ') with
     | '|' :: r3 =>
       if r3.headD '\n' = '\n' then ' ' :: '|' :: pipeLineEndF f r3
       else ' ' :: pipeLineEndF f rest
     | _ => ' ' :: pipeLineEndF f rest)
  | f + 1, c :: rest => c :: pipeLineEndF f rest

/-- `re.sub(r'\n +([•\-\*\+])', r'\n\1', ·)`: bullet lists. -/
def nlSpaceBulletF : Nat → Str → Str
  | 0, s => s
  | _ + 1, [] => []
  | f + 1, '\n' :: rest =>
    (if (rest.takeWhile (· = ' ')).isEmpty then '\n' :: nlSpaceBulletF f rest
     else
       match rest.dropWhile (· = ' ') with
       | b :: r3 =>
         if b = '•' || b = '-' || b = '*' || b = '+' then '\n' :: b :: nlSpaceBulletF f r3
         else '\n' :: nlSpaceBulletF f rest
       | [] => '\n' :: nlSpaceBulletF f rest)
  | f + 1, c :: rest => c :: nlSpaceBulletF f rest

/-- `re.sub(r'\n +(\d+\.)', r'\n\1', ·)`: numbered lists. -/
def nlSpaceNumberF : Nat → Str → Str
  | 0, s => s
  | _ + 1, [] => []
  | f + 1, '\n' :: rest =>
    (if (rest.takeWhile (· = ' ')).isEmpty then '\n' :: nlSpaceNumberF f rest
     else
       let r2 := rest.dropWhile (· = ' ')
       let d := r2.takeWhile Char.isDigit
       match d.isEmpty, r2.drop d.length with
       | false, '.' :: r3 => '\n' :: (d ++ '.' :: nlSpaceNumberF f r3)
       | _, _ => '\n' :: nlSpaceNumberF f rest)
  | f + 1, c :: rest => c :: nlSpaceNumberF f rest

/-- `re.sub(r'\n +(#+)', r'\n\1', ·)`: remove spaces before headers. -/
def nlSpaceHeaderF : Nat → Str → Str
  | 0, s => s
  | _ + 1, [] => []
  | f + 1, '\n' :: rest =>
    (if (rest.takeWhile (· = ' ')).isEmpty then '\n' :: nlSpaceHeaderF f rest
     else
       let r2 := rest.dropWhile (· = ' ')
       if (r2.takeWhile (· = '#')).isEmpty then '\n' :: nlSpaceHeaderF f rest
       else '\n' :: (r2.takeWhile (· = '#') ++ nlSpaceHeaderF f (r2.dropWhile (· = '#'))))
  | f + 1, c :: rest => c :: nlSpaceHeaderF f rest

/-- `re.sub(r'(#+) +([^\n]+)', r'\1 \2', ·)`: normalize header spacing.  At a
`#` run followed by at least one space: if a non-newline character follows the
space run, the match consumes the run, the spaces and the rest of the line and
is replaced keeping a single space; if the space run is followed by a newline
or the end of input, the regex backtracks so the last space becomes group 2
(possible only when there are at least two spaces). -/
def headerSpacingF : Nat → Str → Str
  | 0, s => s
  | _ + 1, [] => []
  | f + 1, '#' :: rest =>
    (let run := ('#' :: rest).takeWhile (· = '#')
     let afterR := ('#' :: rest).dropWhile (· = '#')
     let sp := afterR.takeWhile (· = ' ')
     let afterSp := afterR.dropWhile (· = ' ')
     if sp.isEmpty then '#' :: headerSpacingF f rest
     else if afterSp.headD '\n' = '\n' then
       if 2 ≤ sp.length then run ++ ' ' :: ' ' :: headerSpacingF f afterSp
       else '#' :: headerSpacingF f rest
     else
       run ++ ' ' :: (afterSp.takeWhile (· ≠ '\n') ++
         headerSpacingF f (afterSp.dropWhile (· ≠ '\n'))))
  | f + 1, c :: rest => c :: headerSpacingF f rest

/-- `re.sub(r'[“”„]', '"', ·)` and
`re.sub(r'[‘’]', "'", ·)`. -/
def normQuoteChar (c : Char) : Char :=
  if c = '“' || c = '”' || c = '„' then '"'
  else if c = '‘' || c = '’' then '\''
  else c

/-- `re.sub(r'[​‌‍﻿]', '', ·)`. -/
def isZeroWidth (c : Char) : Bool :=
  c = '​' || c = '‌' || c = '‍' || c = '﻿'

/-- `clean_text` from `app/retrieval.py` (identical in `app/funcs.py`):
the full normalization pipeline, substitutions applied in source order. -/
def clean_text (text : Str) : Str :=
  if text = [] ∨ pyStrip text = [] then []
  else
    let t0 := nfkd text
    let t1 := fixHyphenF (t0.length + 1) t0
    let t2 := capRunsF ' ' 1 [' '] (t1.length + 1) t1
    let t3 := capRunsF '\t' 1 [' '] (t2.length + 1) t2
    let t4 := dropSpacesAfterNLF (t3.length + 1) t3
    let t5 := dropSpacesBeforeNLF (t4.length + 1) t4
    let t6 := capRunsF '\n' 3 ['\n', '\n'] (t5.length + 1) t5
    let t7 := crlfF (t6.length + 1) t6
    let t8 := t7.map (fun c => if c = '\r' then '\n' else c)
    let t9 := dropStandaloneF Char.isDigit (t8.length + 1) t8
    let t10 := dropStandaloneF isRomanChar (t9.length + 1) t9
    let t11 := pipeSpacesF (t10.length + 1) t10
    let t12 := pipeLineStartF (t11.length + 1) true t11
    let t13 := pipeLineEndF (t12.length + 1) t12
    let t14 := nlSpaceBulletF (t13.length + 1) t13
    let t15 := nlSpaceNumberF (t14.length + 1) t14
    let t16 := nlSpaceHeaderF (t15.length + 1) t15
    let t17 := headerSpacingF (t16.length + 1) t16
    let t18 := capRunsF '.' 3 ['.', '.', '.'] (t17.length + 1) t17
    let t19 := capRunsF '-' 3 ['-', '-', '-'] (t18.length + 1) t18
    let t20 := t19.map normQuoteChar
    let t21 := t20.filter (fun c => !isZeroWidth c)
    pyStripNL (pyStrip t21)

/-!
## The chunker

`chunk_text_recursive` (`app/retrieval.py`, lines 164-190) delegates to
LangChain's `RecursiveCharacterTextSplitter` with its default separators
`["\n\n", "\n", " ", ""]`, `keep_separator = True`, `strip_whitespace = True`
and `length_function = len`.  The splitter is an external library; it is
embedded below from its implementation (`langchain_text_splitters`:
`TextSplitter.__init__`, `TextSplitter._merge_splits`, `TextSplitter._join_docs`,
`_split_text_with_regex`, `RecursiveCharacterTextSplitter._split_text`).
Since `keep_separator` is true, splits keep their separator attached at the
front and merging always joins with the empty separator, so `_merge_splits`
is embedded with `separator = ""` (hence `separator_len = 0`).

The overlap-popping `while` loop of `_merge_splits` reads `current_doc[0]`
whenever its condition holds; with a negative `chunk_overlap` the condition
can hold on an emptied list, and CPython raises `IndexError`.  That failure
is part of the observable behavior, so the merge loop and everything above
it return `Except String _`, with the `IndexError` surfaced as an `.error`
exactly where the program raises.
-/

/-- Is `sep` a (contiguous) occurrence somewhere in the text?
(`re.search(re.escape(sep), text)`). -/
def occursIn (sep : Str) : Str → Bool
  | [] => sep.isPrefixOf []
  | c :: rest => sep.isPrefixOf (c :: rest) || occursIn sep rest

/-- Python `re.split(re.escape(sep), text)` for nonempty `sep`: scan left to
right; at each occurrence of `sep`, cut and continue after it.  The
accumulator holds the current piece reversed. -/
def splitOnGoF (sep : Str) : Nat → Str → Str → List Str
  | 0, rem, acc => [acc.reverse ++ rem]
  | _ + 1, [], acc => [acc.reverse]
  | f + 1, c :: rest, acc =>
    if sep.isPrefixOf (c :: rest) then
      acc.reverse :: splitOnGoF sep f (rest.drop (sep.length - 1)) []
    else splitOnGoF sep f rest (c :: acc)

/-- `re.split(re.escape(sep), text)` (pieces only, empties kept). -/
def pySplitOn (sep : Str) (text : Str) : List Str :=
  splitOnGoF sep (text.length + 1) text []

/-- `_split_text_with_regex(text, re.escape(sep), keep_separator = True)` for
nonempty `sep`: each separator occurrence is reattached to the front of the
following piece, and empty strings are dropped. -/
def splitWithSep (sep : Str) (text : Str) : List Str :=
  match pySplitOn sep text with
  | [] => []
  | p :: ps => (p :: ps.map (fun q => sep ++ q)).filter (fun s => !s.isEmpty)

/-- The separator-selection loop at the top of
`RecursiveCharacterTextSplitter._split_text`: returns the chosen separator and
`new_separators` (the remaining finer separators).  The loop breaks at the
first separator that is empty (with `new_separators` left at `[]`) or occurs
in the text (with `new_separators` the rest of the list); if no break happens
the last separator is chosen with no remaining ones. -/
def chooseSep : List Str → Str → Str × List Str
  | [], _ => ([], [])
  | s :: rest, text =>
    if s.isEmpty then ([], [])
    else if occursIn s text then (s, rest)
    else
      match rest with
      | [] => (s, [])
      | _ :: _ => chooseSep rest text

/-- `TextSplitter._join_docs(docs, "")` with `strip_whitespace = True`:
concatenate, strip, drop if empty. -/
def joinDocs (docs : List Str) : Option Str :=
  let text := pyStrip docs.flatten
  if text = [] then none else some text

/-- The overlap-popping `while` loop inside `TextSplitter._merge_splits`
(specialized to `separator_len = 0`): pop leading documents while
`total > chunk_overlap or (total + len > chunk_size and total > 0)`.
When the condition still holds on an emptied list, CPython raises
`IndexError` on `current_doc[0]` — reachable for negative `chunk_overlap` —
which is surfaced as an `.error`. -/
def popLoop (cs co lenD : Int) : List Str → Int → Except String (List Str × Int)
  | [], total =>
    if total > co ∨ (total + lenD > cs ∧ total > 0) then
      .error "IndexError: list index out of range"
    else .ok ([], total)
  | d :: rest, total =>
    if total > co ∨ (total + lenD > cs ∧ total > 0) then
      popLoop cs co lenD rest (total - (d.length : Int))
    else .ok (d :: rest, total)

/-- One iteration of the `for d in splits` loop of `TextSplitter._merge_splits`
(with `separator = ""`).  State: `(docs, current_doc, total)`; an `IndexError`
raised by the popping loop aborts the whole merge, so the state is threaded
through `Except`. -/
def mergeStep (cs co : Int) (st : Except String (List Str × List Str × Int))
    (d : Str) : Except String (List Str × List Str × Int) :=
  match st with
  | .error e => .error e
  | .ok stv =>
    let docs := stv.1
    let current := stv.2.1
    let total := stv.2.2
    let lenD : Int := (d.length : Int)
    if total + lenD > cs then
      if current.isEmpty then .ok (docs, current ++ [d], total + lenD)
      else
        match popLoop cs co lenD current total with
        | .error e => .error e
        | .ok pp => .ok (docs ++ (joinDocs current).toList, pp.1 ++ [d], pp.2 + lenD)
    else .ok (docs, current ++ [d], total + lenD)

/-- `TextSplitter._merge_splits(splits, "")`. -/
def mergeSplits (cs co : Int) (splits : List Str) : Except String (List Str) :=
  match splits.foldl (mergeStep cs co) (.ok ([], [], 0)) with
  | .error e => .error e
  | .ok st => .ok (st.1 ++ (joinDocs st.2.1).toList)

/-- The `for s in splits` loop of `RecursiveCharacterTextSplitter._split_text`:
accumulate good splits (length < chunk size), flush them through
`_merge_splits` at each bad split, and handle a bad split by direct append
(when there are no finer separators) or by the recursive call `recur`.  An
exception from a merge or from a recursive call aborts the loop at that
point, in the program's evaluation order. -/
def splitLoop (cs co : Int) (recur : Str → Except String (List Str))
    (noNewSeps : Bool) : List Str → List Str → Except String (List Str)
  | [], good => if good.isEmpty then .ok [] else mergeSplits cs co good
  | s :: rest, good =>
    if (s.length : Int) < cs then splitLoop cs co recur noNewSeps rest (good ++ [s])
    else
      match (if good.isEmpty then Except.ok [] else mergeSplits cs co good) with
      | .error e => .error e
      | .ok pre =>
        match (if noNewSeps then Except.ok [s] else recur s) with
        | .error e => .error e
        | .ok mid =>
          match splitLoop cs co recur noNewSeps rest [] with
          | .error e => .error e
          | .ok tl => .ok (pre ++ mid ++ tl)

/-- `RecursiveCharacterTextSplitter._split_text(text, separators)`.  The fuel
dominates the recursion depth: every recursive call uses the strictly shorter
`new_separators`, so fuel `separators.length + 1` never runs out. -/
def splitTextF (cs co : Int) : Nat → List Str → Str → Except String (List Str)
  | 0, _, text => .ok [text]
  | f + 1, seps, text =>
    let sc := chooseSep seps text
    let splits :=
      if sc.1.isEmpty then (text.map (fun c => [c])).filter (fun s => !s.isEmpty)
      else splitWithSep sc.1 text
    splitLoop cs co (splitTextF cs co f sc.2) sc.2.isEmpty splits []

/-- The default separators of `RecursiveCharacterTextSplitter`. -/
def defaultSeparators : List Str := ["\n\n".data, "\n".data, " ".data, []]

/-- `RecursiveCharacterTextSplitter.split_text(text)` with default
separators. -/
def split_text (cs co : Int) (text : Str) : Except String (List Str) :=
  splitTextF cs co (defaultSeparators.length + 1) defaultSeparators text

/-- `chunk_text_recursive` from `app/retrieval.py`: empty or all-whitespace
text short-circuits to `[]` before the splitter is constructed; then the
`TextSplitter` constructor validates `chunk_overlap > chunk_size` (raising
`ValueError`, modelled as `.error`); otherwise the text is split, and an
`IndexError` raised inside the merge loop — possible for negative
`chunk_overlap` — propagates as an `.error` as well. -/
def chunk_text_recursive (text : Str) (chunk_size chunk_overlap : Int) :
    Except String (List Str) :=
  if text = [] ∨ pyStrip text = [] then .ok []
  else if chunk_overlap > chunk_size then
    .error "Got a larger chunk overlap than chunk size, should be smaller."
  else split_text chunk_size chunk_overlap text

/-!
## Data model

Python dictionary values occurring in the pipeline are modelled by `PyVal`;
page and chunk dictionaries have a fixed key set in the source, so they are
modelled as structures together with functions giving their `dict` iteration
order (Python 3.7+ dicts iterate in insertion order).
-/

inductive PyVal where
  | vStr : Str → PyVal
  | vInt : Int → PyVal
  | vBool : Bool → PyVal
  | vNone : PyVal
  | vOther : Str → PyVal
deriving DecidableEq

/-- Python `str.split()` (no argument): split on whitespace runs, no empty
pieces.  The accumulator holds the current word reversed. -/
def pyWordsGo : Str → Str → List Str
  | [], acc => if acc.isEmpty then [] else [acc.reverse]
  | c :: rest, acc =>
    if pyIsSpace c then
      if acc.isEmpty then pyWordsGo rest [] else acc.reverse :: pyWordsGo rest []
    else pyWordsGo rest (c :: acc)

/-- Python `str.split()`. -/
def pyWords (s : Str) : List Str := pyWordsGo s []

/-- `os.path.basename` for POSIX paths: everything after the last `/`. -/
def pyBasename (p : Str) : Str := (p.reverse.takeWhile (· ≠ '/')).reverse

/-- One element of the list produced by `parse_pdf`
(`enhanced_page_data`, `app/retrieval.py` lines 44-57): the fixed keys.
Keys added by the extractor's extra-metadata loop are carried separately
(`PageRecord.extras`); `preprocess_text` reads only the fixed keys. -/
structure Page where
  filename : Str
  page : Int
  text : Str
  text_format : Str
  extraction_method : Str
  has_tables : Bool
  char_count : Int
  word_count : Int
  line_count : Int
  images_extracted : Bool
  source_bbox : PyVal
  source_page_size : PyVal
deriving DecidableEq

/-- The output of the external extractor (`pymupdf4llm.to_markdown` with
`page_chunks = True`) for one page: the `'text'` entry and the `'metadata'`
dict (its `page`, `bbox`, `page_size` keys, and the remaining items in
iteration order). -/
structure ExtractorPage where
  text : Str
  meta_page : Option Int
  meta_bbox : Option PyVal
  meta_page_size : Option PyVal
  meta_extra : List (Str × PyVal)
deriving DecidableEq

/-- A full `parse_pdf` page dictionary: fixed keys plus the
`source_`-prefixed extras. -/
structure PageRecord where
  core : Page
  extras : List (Str × PyVal)
deriving DecidableEq

/-- The per-page record construction of `parse_pdf` in `app/retrieval.py`
(lines 44-64): page number `page_metadata.get('page', 0)`. -/
def parsePageRetrieval (filename : Str) (write_images : Bool) (pi : ExtractorPage) :
    PageRecord where
  core :=
    { filename := filename
      page := pi.meta_page.getD 0
      text := pi.text
      text_format := "markdown".data
      extraction_method := "pymupdf4llm".data
      has_tables := pi.text.contains '|'
      char_count := (pi.text.length : Int)
      word_count := ((pyWords pi.text).length : Int)
      line_count := ((pySplitOn "\n".data pi.text).length : Int)
      images_extracted := write_images
      source_bbox := pi.meta_bbox.getD PyVal.vNone
      source_page_size := pi.meta_page_size.getD PyVal.vNone }
  extras := pi.meta_extra.map (fun kv => ("source_".data ++ kv.1, kv.2))

/-- The per-page record construction of `parse_pdf` in `app/funcs.py`
(lines 38-58): identical except the page number is
`page_metadata.get('page', 0) + 1` (1-based conversion). -/
def parsePageFuncs (filename : Str) (write_images : Bool) (pi : ExtractorPage) :
    PageRecord where
  core :=
    { filename := filename
      page := pi.meta_page.getD 0 + 1
      text := pi.text
      text_format := "markdown".data
      extraction_method := "pymupdf4llm".data
      has_tables := pi.text.contains '|'
      char_count := (pi.text.length : Int)
      word_count := ((pyWords pi.text).length : Int)
      line_count := ((pySplitOn "\n".data pi.text).length : Int)
      images_extracted := write_images
      source_bbox := pi.meta_bbox.getD PyVal.vNone
      source_page_size := pi.meta_page_size.getD PyVal.vNone }
  extras := pi.meta_extra.map (fun kv => ("source_".data ++ kv.1, kv.2))

/-- The per-chunk dictionary built by `preprocess_text`
(`app/retrieval.py` lines 239-261): fixed keys, insertion order. -/
structure ChunkDoc where
  filename : Str
  page : Int
  text_format : Str
  extraction_method : Str
  page_has_tables : Bool
  page_char_count : Int
  page_word_count : Int
  page_line_count : Int
  page_images_extracted : Bool
  page_source_bbox : PyVal
  page_source_page_size : PyVal
  text : Str
  chunk_number : Int
  total_chunks_for_page : Int
  chunk_char_count : Int
  chunk_word_count : Int
  is_chunked : Bool
  chunk_size_used : Int
  chunk_overlap_used : Int
deriving DecidableEq

/-- `dict.items()` of a chunk dictionary, in insertion order. -/
def chunkDocItems (cd : ChunkDoc) : List (Str × PyVal) :=
  [ ("filename".data, .vStr cd.filename),
    ("page".data, .vInt cd.page),
    ("text_format".data, .vStr cd.text_format),
    ("extraction_method".data, .vStr cd.extraction_method),
    ("page_has_tables".data, .vBool cd.page_has_tables),
    ("page_char_count".data, .vInt cd.page_char_count),
    ("page_word_count".data, .vInt cd.page_word_count),
    ("page_line_count".data, .vInt cd.page_line_count),
    ("page_images_extracted".data, .vBool cd.page_images_extracted),
    ("page_source_bbox".data, cd.page_source_bbox),
    ("page_source_page_size".data, cd.page_source_page_size),
    ("text".data, .vStr cd.text),
    ("chunk_number".data, .vInt cd.chunk_number),
    ("total_chunks_for_page".data, .vInt cd.total_chunks_for_page),
    ("chunk_char_count".data, .vInt cd.chunk_char_count),
    ("chunk_word_count".data, .vInt cd.chunk_word_count),
    ("is_chunked".data, .vBool cd.is_chunked),
    ("chunk_size_used".data, .vInt cd.chunk_size_used),
    ("chunk_overlap_used".data, .vInt cd.chunk_overlap_used) ]

/-- The chunk dictionary for the chunk with 0-based index `i` (stored 1-based
as `chunk_number`) of a page that produced `total` chunks. -/
def mkChunkDoc (page : Page) (cs co : Int) (total : Nat) (i : Nat) (ct : Str) :
    ChunkDoc where
  filename := page.filename
  page := page.page
  text_format := page.text_format
  extraction_method := page.extraction_method
  page_has_tables := page.has_tables
  page_char_count := page.char_count
  page_word_count := page.word_count
  page_line_count := page.line_count
  page_images_extracted := page.images_extracted
  page_source_bbox := page.source_bbox
  page_source_page_size := page.source_page_size
  text := ct
  chunk_number := (i : Int) + 1
  total_chunks_for_page := (total : Int)
  chunk_char_count := (ct.length : Int)
  chunk_word_count := ((pyWords ct).length : Int)
  is_chunked := true
  chunk_size_used := cs
  chunk_overlap_used := co

/-- The chunk dictionaries built from one page's chunk list. -/
def pageChunkDocs (page : Page) (cs co : Int) (chs : List Str) : List ChunkDoc :=
  chs.enum.map (fun p => mkChunkDoc page cs co chs.length p.1 p.2)

/-- `preprocess_text` from `app/retrieval.py` (lines 212-264): clean each
page's text, skip pages whose cleaned text is empty, chunk the rest, and
build the chunk dictionaries.  A `ValueError` from the splitter constructor
propagates. -/
def preprocess_text : List Page → Int → Int → Except String (List ChunkDoc)
  | [], _, _ => .ok []
  | page :: rest, cs, co =>
    let cleaned := clean_text page.text
    if pyStrip cleaned = [] then preprocess_text rest cs co
    else
      match chunk_text_recursive cleaned cs co with
      | .error e => .error e
      | .ok chs =>
        match preprocess_text rest cs co with
        | .error e => .error e
        | .ok rds => .ok (pageChunkDocs page cs co chs ++ rds)

/-!
## The vector store

ChromaDB is an external collaborator (spec section 6).  Its in-process
behavior is modelled per the spec's contract: `chromadb.EphemeralClient()`
instances within one process share a single system (the client caches one
system per settings identity), so the store is a single state mapping
collection names to entry lists; `get_or_create_collection` creates an empty
collection on first access to a name and resolves the same name to the same
collection afterwards; writes insert-or-replace by id (upsert, section 6's
persistence contract); `query` returns the `n_results` nearest entries by
embedding distance, or all entries when fewer exist.  The embedding function
is external and deterministic and is therefore a parameter of the query path
(entries store their document text; distances are computed from it). -/

structure Entry where
  id : Str
  document : Str
  metadata : List (Str × PyVal)
deriving DecidableEq

/-- The persisted id: `f"{doc['filename']}_page{doc['page']}_chunk{doc['chunk_number']}"`
(`app/retrieval.py` line 285). -/
def mkId (cd : ChunkDoc) : Str :=
  cd.filename ++ "_page".data ++ (toString cd.page).data ++
    "_chunk".data ++ (toString cd.chunk_number).data

/-- The persisted metadata (`app/retrieval.py` lines 290-293): all chunk
dictionary items except the `'text'` key and items whose value is `None`. -/
def mkMetadata (cd : ChunkDoc) : List (Str × PyVal) :=
  (chunkDocItems cd).filter
    (fun kv => decide (kv.1 ≠ "text".data) && decide (kv.2 ≠ PyVal.vNone))

/-- The `IndexedEntry` written for one chunk dictionary. -/
def mkEntry (cd : ChunkDoc) : Entry where
  id := mkId cd
  document := cd.text
  metadata := mkMetadata cd

/-- The shared in-process store: collection name to entries. -/
abbrev ChromaState := List (Str × List Entry)

def hasName (st : ChromaState) (name : Str) : Bool :=
  st.any (fun p => p.1 = name)

def getCollection : ChromaState → Str → List Entry
  | [], _ => []
  | (n, es) :: rest, name => if n = name then es else getCollection rest name

def updColl : ChromaState → Str → List Entry → ChromaState
  | [], _, _ => []
  | (n, es) :: rest, name, new =>
    if n = name then (n, new) :: updColl rest name new
    else (n, es) :: updColl rest name new

/-- `access_chroma_collection` (`app/retrieval.py` lines 193-208) as a state
transformer: `get_or_create_collection(name)` provisions an empty collection
with the fixed embedding function on first access and is a no-op afterwards. -/
def access_chroma_collection (st : ChromaState) (name : Str) : ChromaState :=
  if hasName st name then st else st ++ [(name, [])]

/-- Upsert of a single entry (spec section 6 persistence contract): replace in
place if the id exists, else append. -/
def upsertOne (entries : List Entry) (e : Entry) : List Entry :=
  if entries.any (fun x => x.id = e.id) then
    entries.map (fun x => if x.id = e.id then e else x)
  else entries ++ [e]

/-- The single batch write of a list of entries. -/
def addEntries (entries : List Entry) (new : List Entry) : List Entry :=
  new.foldl upsertOne entries

/-- `add_documents` (`app/retrieval.py` lines 267-302): resolve the
collection, preprocess the pages with the default `chunk_size = 500`,
`chunk_overlap = 150`, build ids, texts and metadata, and write the batch. -/
def add_documents (st : ChromaState) (name : Str) (documents : List Page) :
    Except String ChromaState :=
  match preprocess_text documents 500 150 with
  | .error e => .error e
  | .ok cds =>
    let st1 := access_chroma_collection st name
    .ok (updColl st1 name (addEntries (getCollection st1 name) (cds.map mkEntry)))

/-- Squared Euclidean distance between embedding vectors (Chroma's default
`l2` space). -/
def sqDist (u v : List Int) : Int :=
  (u.zip v).foldl (fun acc p => acc + (p.1 - p.2) * (p.1 - p.2)) 0

/-- `retrieve_documents` (`app/retrieval.py` lines 305-324): resolve the
collection and return the `top_k` nearest entries by ascending embedding
distance to the query (all entries when fewer than `top_k` exist; the empty
list for an absent or empty collection).  `emb` is the external embedding
function shared between ingestion and query. -/
def retrieve_documents (emb : Str → List Int) (st : ChromaState) (name : Str)
    (query : Str) (top_k : Int) : List Entry :=
  let entries := getCollection st name
  let ranked := List.insertionSort
    (fun a b => sqDist (emb query) (emb a.document) ≤ sqDist (emb query) (emb b.document))
    entries
  ranked.take top_k.toNat

/-!
## Shared fixtures for witnesses and counterexamples
-/

/-- A minimal ingestible page whose text is already normalized. -/
def smallPage : Page where
  filename := "doc.pdf".data
  page := 1
  text := "hi".data
  text_format := "markdown".data
  extraction_method := "pymupdf4llm".data
  has_tables := false
  char_count := 2
  word_count := 1
  line_count := 1
  images_extracted := false
  source_bbox := PyVal.vNone
  source_page_size := PyVal.vNone

/-- The single chunk dictionary produced by ingesting `smallPage` with the
default parameters. -/
def smallChunkDoc : ChunkDoc := mkChunkDoc smallPage 500 150 1 0 "hi".data

/-- A page whose normalized text `"abc def"` splits into two chunks at
`chunk_size = 5`, `chunk_overlap = 2`. -/
def twoChunkPage : Page where
  filename := "doc.pdf".data
  page := 1
  text := "abc def".data
  text_format := "markdown".data
  extraction_method := "pymupdf4llm".data
  has_tables := false
  char_count := 7
  word_count := 2
  line_count := 1
  images_extracted := false
  source_bbox := PyVal.vNone
  source_page_size := PyVal.vNone

/-- The lengths of all spans that are simultaneously a suffix of `a` and a
prefix of `b` (the candidate overlapping spans between consecutive chunks). -/
def overlapSpanLens (a b : Str) : List Nat :=
  (List.range (min a.length b.length + 1)).filter
    (fun k => decide (a.drop (a.length - k) = b.take k))

/-!
## C4 — normalization total and idempotent
-/

/-- C4, counterexample: `clean_text` is not idempotent.  On
`"a-\nb-\nc"` the hyphen-rejoin pass consumes the second word run, so the
second hyphen artifact survives one pass (`"ab-\nc"`) and is rejoined only by
a second pass (`"abc"`). -/
theorem c4_counterexample :
    clean_text (clean_text "a-\nb-\nc".data) ≠ clean_text "a-\nb-\nc".data := by
  decide

/-- C4, amended: the normalization function is total, and maps empty or
all-whitespace input to the empty string without raising; it is not
idempotent in general (chained hyphenated line breaks are rejoined one level
per pass). -/
theorem c4_amended_total (s : Str) (h : pyStrip s = []) : clean_text s = [] := by
  unfold clean_text
  rw [if_pos (Or.inr h)]

/-- Witness for `c4_amended_total` at the whitespace-only input `" \n\t "`. -/
theorem c4_amended_total_witness : clean_text " \n\t ".data = [] :=
  c4_amended_total " \n\t ".data (by decide)

/-!
## C5 — configuration validation
-/

/-- C5, counterexample: chunking with `overlap = chunk_size` and with
non-positive `chunk_size` does not fail; both calls return chunks. -/
theorem c5_counterexample :
    chunk_text_recursive "ab cd".data 3 3 = Except.ok ["ab".data, "cd".data] ∧
    chunk_text_recursive "ab".data 0 0 = Except.ok ["a".data, "b".data] :=
  ⟨rfl, rfl⟩

/-!
## C10 — the two `parse_pdf` implementations
-/

/-- C10, counterexample: on the extractor output with text `"hi"` and
metadata page number 3, the two `parse_pdf` implementations produce different
page records (`funcs.py` assigns page 4, `retrieval.py` assigns page 3). -/
theorem c10_counterexample :
    parsePageFuncs "doc.pdf".data false ⟨"hi".data, some 3, none, none, []⟩ ≠
      parsePageRetrieval "doc.pdf".data false ⟨"hi".data, some 3, none, none, []⟩ := by
  decide

/-- C10, amended: for the same extractor output the two `parse_pdf`
implementations agree on every field except the page number, which
`funcs.py` assigns one larger than `retrieval.py` (its 1-based conversion). -/
theorem c10_amended_offset (filename : Str) (write_images : Bool) (pi : ExtractorPage) :
    parsePageFuncs filename write_images pi =
      { parsePageRetrieval filename write_images pi with
        core := { (parsePageRetrieval filename write_images pi).core with
                  page := (parsePageRetrieval filename write_images pi).core.page + 1 } } :=
  rfl

/-!
## C6 — chunk metadata assembly
-/

/-- C6, counterexample: the stored metadata of an ingested chunk keeps the
page-level attribute `filename` under its original, unprefixed name (there is
no `page_filename` key), contradicting the claim that every parent-page
attribute is renamed with a `page_` prefix. -/
theorem c6_counterexample :
    preprocess_text [smallPage] 500 150 = Except.ok [smallChunkDoc] ∧
    "filename".data ∈ (mkMetadata smallChunkDoc).map Prod.fst ∧
    "page_filename".data ∉ (mkMetadata smallChunkDoc).map Prod.fst :=
  ⟨by rfl, by decide, by decide⟩

/-- C6, amended: the stored metadata of every chunk is the chunk dictionary
minus the chunk text and minus any `None`-valued attribute; the page identity
fields `filename`, `page`, `text_format`, `extraction_method` are carried
under their original names, while the remaining page-level attributes carry
the `page_` prefix, alongside the chunk-level statistics. -/
theorem c6_amended_metadata (page : Page) (cs co : Int) (total i : Nat) (ct : Str) :
    "text".data ∉ (mkMetadata (mkChunkDoc page cs co total i ct)).map Prod.fst ∧
    (∀ kv ∈ mkMetadata (mkChunkDoc page cs co total i ct), kv.2 ≠ PyVal.vNone) ∧
    ("filename".data, PyVal.vStr page.filename) ∈
      mkMetadata (mkChunkDoc page cs co total i ct) ∧
    ("page".data, PyVal.vInt page.page) ∈
      mkMetadata (mkChunkDoc page cs co total i ct) ∧
    ("page_has_tables".data, PyVal.vBool page.has_tables) ∈
      mkMetadata (mkChunkDoc page cs co total i ct) ∧
    ("chunk_number".data, PyVal.vInt ((i : Int) + 1)) ∈
      mkMetadata (mkChunkDoc page cs co total i ct) := by
  by_cases hb : page.source_bbox = PyVal.vNone <;>
    by_cases hp : page.source_page_size = PyVal.vNone <;>
      simp [mkMetadata, chunkDocItems, mkChunkDoc, hb, hp]

/-- Witness for `c6_amended_metadata` at the concrete small page. -/
theorem c6_amended_metadata_witness :
    "text".data ∉ (mkMetadata (mkChunkDoc smallPage 500 150 1 0 "hi".data)).map Prod.fst ∧
    (∀ kv ∈ mkMetadata (mkChunkDoc smallPage 500 150 1 0 "hi".data), kv.2 ≠ PyVal.vNone) ∧
    ("filename".data, PyVal.vStr smallPage.filename) ∈
      mkMetadata (mkChunkDoc smallPage 500 150 1 0 "hi".data) ∧
    ("page".data, PyVal.vInt smallPage.page) ∈
      mkMetadata (mkChunkDoc smallPage 500 150 1 0 "hi".data) ∧
    ("page_has_tables".data, PyVal.vBool smallPage.has_tables) ∈
      mkMetadata (mkChunkDoc smallPage 500 150 1 0 "hi".data) ∧
    ("chunk_number".data, PyVal.vInt ((0 : Int) + 1)) ∈
      mkMetadata (mkChunkDoc smallPage 500 150 1 0 "hi".data) :=
  c6_amended_metadata smallPage 500 150 1 0 "hi".data

/-!
## C3 — deterministic chunk ids
-/

/-- Every chunk dictionary produced by `preprocess_text` arises from one of
the input pages and that page's chunk list. -/
theorem preprocess_mem {pages : List Page} {cs co : Int} {cds : List ChunkDoc}
    (h : preprocess_text pages cs co = .ok cds) :
    ∀ cd ∈ cds, ∃ page ∈ pages, ∃ chs,
      chunk_text_recursive (clean_text page.text) cs co = .ok chs ∧
      cd ∈ pageChunkDocs page cs co chs := by
  induction pages generalizing cds with
  | nil =>
    unfold preprocess_text at h
    cases h
    simp
  | cons page rest ih =>
    unfold preprocess_text at h
    by_cases hs : pyStrip (clean_text page.text) = []
    · rw [if_pos hs] at h
      intro cd hcd
      obtain ⟨p, hp, r⟩ := ih h cd hcd
      exact ⟨p, List.mem_cons_of_mem _ hp, r⟩
    · rw [if_neg hs] at h
      cases hch : chunk_text_recursive (clean_text page.text) cs co with
      | error e => rw [hch] at h; cases h
      | ok chs =>
        rw [hch] at h
        cases hrest : preprocess_text rest cs co with
        | error e => rw [hrest] at h; cases h
        | ok rds =>
          rw [hrest] at h
          cases h
          intro cd hcd
          rcases List.mem_append.mp hcd with hmem | hmem
          · exact ⟨page, List.mem_cons_self _ _, chs, hch, hmem⟩
          · obtain ⟨p, hp, r⟩ := ih hrest cd hmem
            exact ⟨p, List.mem_cons_of_mem _ hp, r⟩

/-- A member of `pageChunkDocs` is the chunk dictionary of the chunk at some
position of the page's chunk list. -/
theorem pageChunkDocs_mem {page : Page} {cs co : Int} {chs : List Str}
    {cd : ChunkDoc} (h : cd ∈ pageChunkDocs page cs co chs) :
    ∃ n c, chs[n]? = some c ∧ cd = mkChunkDoc page cs co chs.length n c := by
  unfold pageChunkDocs at h
  obtain ⟨p, hp, hcd⟩ := List.mem_map.mp h
  exact ⟨p.1, p.2, List.mk_mem_enum_iff_getElem?.mp hp, hcd.symm⟩

/-- C3: every stored chunk's identifier is
`{filename}_page{page}_chunk{chunk_number}` where `chunk_number` is the
chunk's 1-based position within its page's chunk list (0-based position `n`
stored as `n + 1`). -/
theorem c3_chunk_ids {pages : List Page} {cs co : Int} {cds : List ChunkDoc}
    (h : preprocess_text pages cs co = .ok cds) :
    ∀ cd ∈ cds, ∃ page ∈ pages, ∃ chs : List Str, ∃ n : Nat, ∃ c : Str,
      chunk_text_recursive (clean_text page.text) cs co = .ok chs ∧
      chs[n]? = some c ∧
      cd = mkChunkDoc page cs co chs.length n c ∧
      cd.chunk_number = (n : Int) + 1 ∧
      mkId cd = page.filename ++ "_page".data ++ (toString page.page).data ++
        "_chunk".data ++ (toString ((n : Int) + 1)).data := by
  intro cd hcd
  obtain ⟨page, hpage, chs, hch, hmem⟩ := preprocess_mem h cd hcd
  obtain ⟨n, c, hget, rfl⟩ := pageChunkDocs_mem hmem
  exact ⟨page, hpage, chs, n, c, hch, hget, rfl, rfl, rfl⟩

/-- Witness for `c3_chunk_ids`: ingesting the page `doc.pdf`, page 1,
produces the id `doc.pdf_page1_chunk1` for its first chunk. -/
theorem c3_chunk_ids_witness :
    ∃ page ∈ [smallPage], ∃ chs : List Str, ∃ n : Nat, ∃ c : Str,
      chunk_text_recursive (clean_text page.text) 500 150 = .ok chs ∧
      chs[n]? = some c ∧
      smallChunkDoc = mkChunkDoc page 500 150 chs.length n c ∧
      smallChunkDoc.chunk_number = (n : Int) + 1 ∧
      mkId smallChunkDoc = page.filename ++ "_page".data ++
        (toString page.page).data ++ "_chunk".data ++ (toString ((n : Int) + 1)).data :=
  c3_chunk_ids (by rfl) smallChunkDoc (by decide)

/-!
## C7 — retrieval respects `top_k`
-/

/-- A name that is absent from the store has the empty collection. -/
theorem getCollection_of_not_hasName : ∀ {st : ChromaState} {name : Str},
    hasName st name = false → getCollection st name = [] := by
  intro st
  induction st with
  | nil => intro name _; rfl
  | cons p rest ih =>
    intro name h
    obtain ⟨n, es⟩ := p
    unfold hasName at h
    simp only [List.any_cons, Bool.or_eq_false_iff, decide_eq_false_iff_not] at h
    unfold getCollection
    rw [if_neg h.1]
    exact ih (by unfold hasName; exact h.2)

/-- C7: a search with `top_k = k ≥ 1` returns exactly
`min k (collection size)` entries, and a search against a name that was never
written to returns the empty result rather than an error. -/
theorem c7_top_k (emb : Str → List Int) (st : ChromaState) (name query : Str)
    (k : Int) (hk : 1 ≤ k) :
    (retrieve_documents emb st name query k).length =
      min k.toNat (getCollection st name).length ∧
    (hasName st name = false → retrieve_documents emb st name query k = []) := by
  constructor
  · unfold retrieve_documents
    rw [List.length_take, List.length_insertionSort]
  · intro h
    unfold retrieve_documents
    rw [getCollection_of_not_hasName h]
    simp [List.insertionSort]

/-- Witness for `c7_top_k`: a one-entry collection queried with `top_k = 5`,
and an absent collection name. -/
theorem c7_top_k_witness :
    (retrieve_documents (fun _ => []) [("c".data, [mkEntry smallChunkDoc])]
        "c".data "cats".data 5).length =
      min (Int.toNat 5)
        (getCollection [("c".data, [mkEntry smallChunkDoc])] "c".data).length ∧
    (hasName [("c".data, [mkEntry smallChunkDoc])] "c".data = false →
      retrieve_documents (fun _ => []) [("c".data, [mkEntry smallChunkDoc])]
        "c".data "cats".data 5 = []) :=
  c7_top_k (fun _ => []) [("c".data, [mkEntry smallChunkDoc])] "c".data
    "cats".data 5 (by decide)

/-!
## C1 — shared registry: completed writes are visible to subsequent reads
-/

theorem hasName_append_self (st : ChromaState) (name : Str) :
    hasName (st ++ [(name, [])]) name = true := by
  unfold hasName
  simp

theorem hasName_access (st : ChromaState) (name : Str) :
    hasName (access_chroma_collection st name) name = true := by
  unfold access_chroma_collection
  by_cases h : hasName st name
  · rw [if_pos h]; exact h
  · rw [if_neg h]; exact hasName_append_self st name

theorem getCollection_append_self : ∀ (st : ChromaState) (name : Str),
    getCollection (st ++ [(name, [])]) name = getCollection st name := by
  intro st
  induction st with
  | nil => intro name; simp [getCollection]
  | cons p rest ih =>
    intro name
    obtain ⟨n, es⟩ := p
    by_cases h : n = name <;> simp [getCollection, h, ih]

/-- Resolving a collection does not change its contents (creation provisions
it empty). -/
theorem getCollection_access (st : ChromaState) (name : Str) :
    getCollection (access_chroma_collection st name) name = getCollection st name := by
  unfold access_chroma_collection
  by_cases h : hasName st name
  · rw [if_pos h]
  · rw [if_neg h]
    rw [getCollection_append_self]

/-- Updating a present name stores exactly the new entries. -/
theorem getCollection_updColl : ∀ (st : ChromaState) (name : Str)
    (new : List Entry), hasName st name = true →
    getCollection (updColl st name new) name = new := by
  intro st
  induction st with
  | nil => intro name new h; simp [hasName] at h
  | cons p rest ih =>
    intro name new h
    obtain ⟨n, es⟩ := p
    by_cases hn : n = name
    · simp [updColl, getCollection, hn]
    · unfold hasName at h
      simp only [List.any_cons, Bool.or_eq_true, decide_eq_true_eq] at h
      rcases h with h | h
      · exact absurd h hn
      · simp only [updColl, getCollection, if_neg hn]
        exact ih name new h

/-- `upsertOne` preserves the presence of every id. -/
theorem mem_ids_upsertOne {s : List Entry} {i : Str} (e : Entry)
    (h : i ∈ s.map Entry.id) : i ∈ (upsertOne s e).map Entry.id := by
  unfold upsertOne
  by_cases ha : s.any (fun x => x.id = e.id)
  · rw [if_pos ha]
    obtain ⟨x, hx, hxi⟩ := List.mem_map.mp h
    by_cases hxe : x.id = e.id
    · refine List.mem_map.mpr ⟨e, ?_, by rw [← hxi, hxe]⟩
      refine List.mem_map.mpr ⟨x, hx, by rw [if_pos hxe]⟩
    · refine List.mem_map.mpr ⟨x, ?_, hxi⟩
      refine List.mem_map.mpr ⟨x, hx, by rw [if_neg hxe]⟩
  · rw [if_neg ha]
    rw [List.map_append]
    exact List.mem_append_left _ h

/-- After `upsertOne s e`, the id of `e` is present. -/
theorem id_mem_upsertOne (s : List Entry) (e : Entry) :
    e.id ∈ (upsertOne s e).map Entry.id := by
  unfold upsertOne
  by_cases ha : s.any (fun x => x.id = e.id)
  · rw [if_pos ha]
    obtain ⟨x, hx, hxe⟩ := List.any_eq_true.mp ha
    simp only [decide_eq_true_eq] at hxe
    refine List.mem_map.mpr ⟨e, List.mem_map.mpr ⟨x, hx, by rw [if_pos hxe]⟩, rfl⟩
  · rw [if_neg ha]
    simp

/-- Id presence is preserved across the batch fold. -/
theorem mem_ids_addEntries_of_mem : ∀ (new s : List Entry) {i : Str},
    i ∈ s.map Entry.id → i ∈ (addEntries s new).map Entry.id := by
  intro new
  induction new with
  | nil => intro s i h; exact h
  | cons a t ih =>
    intro s i h
    exact ih (upsertOne s a) (mem_ids_upsertOne a h)

/-- Every id in the batch is present after the batch write. -/
theorem mem_ids_addEntries : ∀ (new s : List Entry) (e : Entry), e ∈ new →
    e.id ∈ (addEntries s new).map Entry.id := by
  intro new
  induction new with
  | nil => intro s e h; cases h
  | cons a t ih =>
    intro s e h
    rcases List.mem_cons.mp h with rfl | h
    · exact mem_ids_addEntries_of_mem t (upsertOne s e) (id_mem_upsertOne s e)
    · exact ih (upsertOne s a) e h

/-- C1: the registry resolves a name to the one shared store, so every entry
written by a completed `add_documents` call is returned by a subsequent
`retrieve_documents` call on the same collection name (with `top_k` at least
the collection size, the result contains the written id). -/
theorem c1_write_read (emb : Str → List Int) (st : ChromaState) (name : Str)
    (docs : List Page) (st' : ChromaState) (cds : List ChunkDoc) (cd : ChunkDoc)
    (q : Str) (hpre : preprocess_text docs 500 150 = .ok cds)
    (hadd : add_documents st name docs = .ok st') (hmem : cd ∈ cds) :
    mkId cd ∈ (retrieve_documents emb st' name q
      ((getCollection st' name).length : Int)).map Entry.id := by
  unfold add_documents at hadd
  rw [hpre] at hadd
  cases hadd
  rw [getCollection_updColl _ _ _ (hasName_access st name)]
  unfold retrieve_documents
  rw [getCollection_updColl _ _ _ (hasName_access st name)]
  rw [Int.toNat_natCast]
  rw [← List.length_insertionSort
    (fun a b => sqDist (emb q) (emb a.document) ≤ sqDist (emb q) (emb b.document))
    (addEntries (getCollection (access_chroma_collection st name) name) (cds.map mkEntry))]
  rw [List.take_length]
  have hperm := List.perm_insertionSort
    (fun a b => sqDist (emb q) (emb a.document) ≤ sqDist (emb q) (emb b.document))
    (addEntries (getCollection (access_chroma_collection st name) name) (cds.map mkEntry))
  rw [List.Perm.mem_iff (hperm.map Entry.id)]
  have : mkId cd = (mkEntry cd).id := rfl
  rw [this]
  exact mem_ids_addEntries _ _ (mkEntry cd) (List.mem_map_of_mem mkEntry hmem)

/-- Witness for `c1_write_read`: write the small page to collection `"c"` in
the empty store, then search `"c"`. -/
theorem c1_write_read_witness :
    mkId smallChunkDoc ∈ (retrieve_documents (fun _ => [])
      [("c".data, [mkEntry smallChunkDoc])] "c".data "cats".data
      ((getCollection [("c".data, [mkEntry smallChunkDoc])] "c".data).length : Int)).map
        Entry.id :=
  c1_write_read (fun _ => []) [] "c".data [smallPage]
    [("c".data, [mkEntry smallChunkDoc])] [smallChunkDoc] smallChunkDoc
    "cats".data (by rfl) (by rfl) (by decide)

/-!
## C2 — idempotent ingestion

The batch write is a left fold of single-entry upserts.  It is characterized
below (`addEntries_char`): the result is the original entries with each id
occurring in the batch overwritten in place by the last batch entry carrying
that id, followed by the last batch entries of the ids that were not yet
present, in first-occurrence order.  Idempotence of the double write follows.
-/

/-- The last entry of `l` carrying the id of `x`, defaulting to `x`. -/
def replLast (l : List Entry) (x : Entry) : Entry :=
  (l.filter (fun e => decide (e.id = x.id))).getLastD x

/-- The ids occurring in `l`, in first-occurrence order, deduplicated. -/
def firstOccur : List Entry → List Str
  | [] => []
  | e :: t => e.id :: (firstOccur t).filter (fun i => decide (i ≠ e.id))

/-- The entries a batch write appends: for each batch id not in `present`,
the last batch entry with that id. -/
def newTail (l : List Entry) (present : List Str) : List Entry :=
  ((firstOccur l).filter (fun i => decide (i ∉ present))).filterMap
    (fun i => (l.filter (fun e => decide (e.id = i))).getLast?)

theorem replLast_id (l : List Entry) (x : Entry) : (replLast l x).id = x.id := by
  unfold replLast
  rw [List.getLastD_eq_getLast?]
  cases hg : (l.filter (fun e => decide (e.id = x.id))).getLast? with
  | none => rfl
  | some y =>
    have hy : y ∈ l.filter (fun e => decide (e.id = x.id)) :=
      List.mem_of_getLast?_eq_some hg
    have hid : y.id = x.id := by
      have := (List.mem_filter.mp hy).2
      exact of_decide_eq_true this
    simpa using hid

theorem replLast_nil (x : Entry) : replLast [] x = x := rfl

theorem firstOccur_cons (a : Entry) (t : List Entry) :
    firstOccur (a :: t) = a.id :: (firstOccur t).filter (fun i => decide (i ≠ a.id)) :=
  rfl

/-- The characterization of the batch write. -/
theorem addEntries_char : ∀ (l s : List Entry),
    addEntries s l = s.map (replLast l) ++ newTail l (s.map Entry.id) := by
  intro l
  induction l with
  | nil =>
    intro s
    show s = _
    have hm : s.map (replLast []) = s := by
      rw [List.map_congr_left (fun x _ => replLast_nil x)]
      exact List.map_id' s
    rw [hm]
    simp [newTail, firstOccur]
  | cons a t ih =>
    intro s
    show addEntries (upsertOne s a) t = _
    rw [ih (upsertOne s a)]
    by_cases ha : a.id ∈ s.map Entry.id
    · -- the id of `a` is already present: in-place replacement
      have haB : s.any (fun x => decide (x.id = a.id)) = true := by
        obtain ⟨x, hx, hxi⟩ := List.mem_map.mp ha
        exact List.any_eq_true.mpr ⟨x, hx, by simp [hxi]⟩
      have hup : upsertOne s a = s.map (fun x => if x.id = a.id then a else x) := by
        unfold upsertOne
        rw [if_pos haB]
      rw [hup]
      have hids : (s.map (fun x => if x.id = a.id then a else x)).map Entry.id =
          s.map Entry.id := by
        rw [List.map_map]
        refine List.map_congr_left (fun x _ => ?_)
        by_cases hx : x.id = a.id
        · simp [hx]
        · simp [hx]
      rw [hids, List.map_map]
      have hmap : ∀ x ∈ s,
          (replLast t ∘ fun x => if x.id = a.id then a else x) x =
            replLast (a :: t) x := by
        intro x _
        by_cases hx : x.id = a.id
        · simp only [Function.comp_apply, if_pos hx]
          unfold replLast
          rw [hx]
          rw [List.filter_cons_of_pos (by simp)]
          rw [List.getLastD_cons]
        · simp only [Function.comp_apply, if_neg hx]
          unfold replLast
          rw [List.filter_cons_of_neg (by simpa using fun h => hx h.symm)]
      rw [List.map_congr_left hmap]
      have hnt : newTail t (s.map Entry.id) = newTail (a :: t) (s.map Entry.id) := by
        unfold newTail
        rw [firstOccur_cons]
        rw [List.filter_cons_of_neg (by simpa using ha)]
        rw [List.filter_filter]
        have hpred : ∀ i ∈ firstOccur t,
            decide (i ∉ s.map Entry.id) =
              (decide (i ∉ s.map Entry.id) && decide (i ≠ a.id)) := by
          intro i _
          by_cases hiP : i ∈ s.map Entry.id
          · simp [hiP]
          · have hia : i ≠ a.id := fun h => hiP (h ▸ ha)
            simp [hiP, hia]
        rw [← List.filter_congr hpred]
        refine List.filterMap_congr (fun i hi => ?_)
        have hiP : i ∉ s.map Entry.id := by
          have := (List.mem_filter.mp hi).2
          exact of_decide_eq_true this
        have hia : i ≠ a.id := fun h => hiP (h ▸ ha)
        rw [List.filter_cons_of_neg (by simpa using fun h => hia h.symm)]
      rw [hnt]
    · -- the id of `a` is new: append
      have haB : s.any (fun x => decide (x.id = a.id)) = false := by
        rw [List.any_eq_false]
        intro x hx
        simp only [decide_eq_true_eq]
        exact fun h => ha (List.mem_map.mpr ⟨x, hx, h⟩)
      have hup : upsertOne s a = s ++ [a] := by
        unfold upsertOne
        rw [if_neg (by simp [haB])]
      rw [hup, List.map_append, List.map_append]
      have hmap : ∀ x ∈ s, replLast t x = replLast (a :: t) x := by
        intro x hx
        have hxa : x.id ≠ a.id := fun h => ha (List.mem_map.mpr ⟨x, hx, h⟩)
        unfold replLast
        rw [List.filter_cons_of_neg (by simpa using fun h => hxa h.symm)]
      rw [List.map_congr_left hmap]
      have hfa : ((a :: t).filter (fun e => decide (e.id = a.id))).getLast? =
          some (replLast t a) := by
        rw [List.filter_cons_of_pos (by simp)]
        rw [List.getLast?_cons]
        unfold replLast
        rw [List.getLastD_eq_getLast?]
      have hnt : newTail (a :: t) (s.map Entry.id) =
          replLast t a :: newTail t (s.map Entry.id ++ [a.id]) := by
        unfold newTail
        rw [firstOccur_cons]
        rw [List.filter_cons_of_pos (by simpa using ha)]
        simp only [List.filterMap_cons, hfa]
        congr 1
        rw [List.filter_filter]
        have hpred : ∀ i ∈ firstOccur t,
            decide (i ∉ s.map Entry.id ++ [a.id]) =
              (decide (i ∉ s.map Entry.id) && decide (i ≠ a.id)) := by
          intro i _
          simp only [List.mem_append, List.mem_singleton, not_or]
          by_cases hiP : i ∈ s.map Entry.id
          · simp [hiP]
          · by_cases hia : i = a.id
            · simp [hiP, hia]
            · simp [hiP, hia]
        rw [← List.filter_congr hpred]
        refine (List.filterMap_congr (fun i hi => ?_)).symm
        have hine : i ∉ s.map Entry.id ++ [a.id] := by
          have := (List.mem_filter.mp hi).2
          exact of_decide_eq_true this
        have hia : i ≠ a.id := by
          simp only [List.mem_append, List.mem_singleton, not_or] at hine
          exact hine.2
        rw [List.filter_cons_of_neg (by simpa using fun h => hia h.symm)]
      rw [hnt]
      rw [List.append_assoc]
      rfl

theorem firstOccur_mem_ids : ∀ {l : List Entry} {i : Str},
    i ∈ firstOccur l → ∃ e ∈ l, e.id = i := by
  intro l
  induction l with
  | nil => intro i h; cases h
  | cons a t ih =>
    intro i h
    unfold firstOccur at h
    rcases List.mem_cons.mp h with rfl | h
    · exact ⟨a, List.mem_cons_self _ _, rfl⟩
    · obtain ⟨e, he, hei⟩ := ih (List.mem_of_mem_filter h)
      exact ⟨e, List.mem_cons_of_mem _ he, hei⟩

theorem replLast_replLast (l : List Entry) (x : Entry) :
    replLast l (replLast l x) = replLast l x := by
  conv_lhs => rw [replLast]
  rw [replLast_id]
  rw [List.getLastD_eq_getLast?]
  cases hg : (l.filter (fun e => decide (e.id = x.id))).getLast? with
  | none => simp
  | some e =>
    simp only [Option.getD_some]
    unfold replLast
    rw [List.getLastD_eq_getLast?, hg]
    rfl

theorem replLast_of_getLast {l : List Entry} {i : Str} {x : Entry}
    (hg : (l.filter (fun e => decide (e.id = i))).getLast? = some x) :
    replLast l x = x := by
  have hx : x ∈ l.filter (fun e => decide (e.id = i)) :=
    List.mem_of_getLast?_eq_some hg
  have hid : x.id = i := of_decide_eq_true (List.mem_filter.mp hx).2
  unfold replLast
  rw [hid, List.getLastD_eq_getLast?, hg]
  rfl

/-- Writing the same batch twice produces the same entries as writing it
once. -/
theorem addEntries_idem (s l : List Entry) :
    addEntries (addEntries s l) l = addEntries s l := by
  rw [addEntries_char l (addEntries s l)]
  have hids : ∀ i ∈ firstOccur l, i ∈ (addEntries s l).map Entry.id := by
    intro i hi
    obtain ⟨e, he, rfl⟩ := firstOccur_mem_ids hi
    exact mem_ids_addEntries l s e he
  have hnt : newTail l ((addEntries s l).map Entry.id) = [] := by
    unfold newTail
    rw [List.filter_eq_nil_iff.mpr (fun i hi => by simp [hids i hi])]
    rfl
  rw [hnt, List.append_nil]
  have hfix : ∀ x ∈ addEntries s l, replLast l x = x := by
    intro x hx
    rw [addEntries_char l s] at hx
    rcases List.mem_append.mp hx with hx | hx
    · obtain ⟨y, _, rfl⟩ := List.mem_map.mp hx
      exact replLast_replLast l y
    · unfold newTail at hx
      obtain ⟨i, _, hg⟩ := List.mem_filterMap.mp hx
      exact replLast_of_getLast hg
  calc (addEntries s l).map (replLast l)
      = (addEntries s l).map (fun x => x) := List.map_congr_left hfix
    _ = addEntries s l := List.map_id' _

theorem hasName_updColl : ∀ (st : ChromaState) (name m : Str)
    (new : List Entry), hasName (updColl st name new) m = hasName st m := by
  intro st
  induction st with
  | nil => intro name m new; rfl
  | cons p rest ih =>
    intro name m new
    obtain ⟨n, es⟩ := p
    have hrest := ih name m new
    unfold hasName at hrest ⊢
    by_cases hn : n = name
    · simp only [updColl, if_pos hn, List.any_cons, hrest]
    · simp only [updColl, if_neg hn, List.any_cons, hrest]

theorem updColl_updColl : ∀ (st : ChromaState) (name : Str)
    (x y : List Entry), updColl (updColl st name x) name y = updColl st name y := by
  intro st
  induction st with
  | nil => intro name x y; rfl
  | cons p rest ih =>
    intro name x y
    obtain ⟨n, es⟩ := p
    by_cases hn : n = name
    · simp only [updColl, if_pos hn, ih]
    · simp only [updColl, if_neg hn, ih]

theorem access_of_hasName {st : ChromaState} {name : Str}
    (h : hasName st name = true) : access_chroma_collection st name = st := by
  unfold access_chroma_collection
  rw [if_pos h]

/-- The successful-write equation of `add_documents`. -/
theorem add_documents_ok {st : ChromaState} {name : Str} {docs : List Page}
    {cds : List ChunkDoc} (hpre : preprocess_text docs 500 150 = .ok cds) :
    add_documents st name docs =
      .ok (updColl (access_chroma_collection st name) name
        (addEntries (getCollection (access_chroma_collection st name) name)
          (cds.map mkEntry))) := by
  unfold add_documents
  rw [hpre]

/-- C2: calling `add_documents` twice with the same input leaves the store in
exactly the state of calling it once (idempotent ingestion). -/
theorem c2_idempotent_write (st : ChromaState) (name : Str) (docs : List Page)
    (st' : ChromaState) (h : add_documents st name docs = .ok st') :
    add_documents st' name docs = .ok st' := by
  cases hpre : preprocess_text docs 500 150 with
  | error e =>
    unfold add_documents at h
    rw [hpre] at h
    cases h
  | ok cds =>
    rw [add_documents_ok hpre] at h
    cases h
    have hn : hasName (updColl (access_chroma_collection st name) name
        (addEntries (getCollection (access_chroma_collection st name) name)
          (cds.map mkEntry))) name = true := by
      rw [hasName_updColl]
      exact hasName_access st name
    rw [add_documents_ok hpre]
    rw [access_of_hasName hn]
    rw [getCollection_updColl _ _ _ (hasName_access st name)]
    rw [addEntries_idem]
    rw [updColl_updColl]

/-- Witness for `c2_idempotent_write`: re-ingesting the small page into the
collection it was already written to leaves the store unchanged. -/
theorem c2_idempotent_write_witness :
    add_documents [("c".data, [mkEntry smallChunkDoc])] "c".data [smallPage] =
      Except.ok [("c".data, [mkEntry smallChunkDoc])] :=
  c2_idempotent_write [] "c".data [smallPage]
    [("c".data, [mkEntry smallChunkDoc])] (by rfl)

/-!
## C8 and C9 — counterexamples

With `chunk_size = 5`, `chunk_overlap = 2` on the normalized text
`"abc def"`, the splitter produces `["abc", "def"]`: the overlap-popping loop
removes the whole previous chunk (its 3 characters exceed the overlap budget
2), so the chunks share no span at all, and the separating space is stripped,
so no choice of removed overlap spans reconstructs `"abc def"`.
-/

/-- C8, counterexample: a two-chunk output whose consecutive chunks share no
nonempty overlapping span (the only common suffix-of-previous /
prefix-of-next span length is 0). -/
theorem c8_counterexample :
    chunk_text_recursive "abc def".data 5 2 = Except.ok ["abc".data, "def".data] ∧
    overlapSpanLens "abc".data "def".data = [0] :=
  ⟨rfl, by decide⟩

/-- C9, counterexample: for the page with normalized text `"abc def"` and
chunks `["abc", "def"]`, removing the (unique, empty) overlapping span from
the second chunk and concatenating yields `"abcdef"`, not the normalized page
text — the separating whitespace was stripped at the chunk boundary. -/
theorem c9_counterexample :
    clean_text twoChunkPage.text = "abc def".data ∧
    preprocess_text [twoChunkPage] 5 2 =
      Except.ok [mkChunkDoc twoChunkPage 5 2 2 0 "abc".data,
                 mkChunkDoc twoChunkPage 5 2 2 1 "def".data] ∧
    overlapSpanLens "abc".data "def".data = [0] ∧
    "abc".data ++ List.drop 0 "def".data ≠ clean_text twoChunkPage.text :=
  ⟨by decide, by rfl, by decide, by decide⟩

/-!
## C9 — amended: chunks are contiguous substrings of the normalized text

`Contig a b` states that `a` occurs as a contiguous segment of `b`.  The
argument: the splits produced at each recursion level concatenate back to the
level's input text (separators are kept), each merged chunk is the stripped
concatenation of a contiguous window of splits, and recursion descends into
single splits.
-/

/-- `a` occurs as a contiguous segment of `b`. -/
def Contig {α : Type} (a b : List α) : Prop := ∃ u v, b = u ++ a ++ v

theorem contig_refl {α : Type} (l : List α) : Contig l l :=
  ⟨[], [], by simp⟩

theorem contig_trans {α : Type} {a b c : List α} (h1 : Contig a b)
    (h2 : Contig b c) : Contig a c := by
  obtain ⟨u1, v1, rfl⟩ := h1
  obtain ⟨u2, v2, rfl⟩ := h2
  exact ⟨u2 ++ u1, v1 ++ v2, by simp⟩

theorem contig_append_left {α : Type} {a l : List α} (u : List α)
    (h : Contig a l) : Contig a (u ++ l) := by
  obtain ⟨x, y, rfl⟩ := h
  exact ⟨u ++ x, y, by simp⟩

theorem contig_flatten {α : Type} {w l : List (List α)} (h : Contig w l) :
    Contig w.flatten l.flatten := by
  obtain ⟨u, v, rfl⟩ := h
  exact ⟨u.flatten, v.flatten, by simp⟩

theorem contig_singleton_of_mem {α : Type} {x : α} {l : List α} (h : x ∈ l) :
    Contig [x] l := by
  obtain ⟨u, v, rfl⟩ := List.append_of_mem h
  exact ⟨u, v, by simp⟩

theorem contig_length_le {α : Type} {a b : List α} (h : Contig a b) :
    a.length ≤ b.length := by
  obtain ⟨u, v, rfl⟩ := h
  simp
  omega

theorem contig_stripLeft (s : Str) : Contig (pyStripLeft s) s :=
  ⟨s.takeWhile pyIsSpace, [], by simp [pyStripLeft, List.takeWhile_append_dropWhile]⟩

theorem contig_stripRight (s : Str) : Contig (pyStripRight s) s := by
  refine ⟨[], (s.reverse.takeWhile pyIsSpace).reverse, ?_⟩
  unfold pyStripRight
  conv_lhs => rw [← List.reverse_reverse s,
    ← List.takeWhile_append_dropWhile (p := pyIsSpace) (l := s.reverse)]
  rw [List.reverse_append]
  simp

theorem contig_pyStrip (s : Str) : Contig (pyStrip s) s :=
  contig_trans (contig_stripRight (pyStripLeft s)) (contig_stripLeft s)

/-- The value held by a successful `joinDocs`. -/
theorem joinDocs_mem {cur : List Str} {x : Str}
    (h : x ∈ (joinDocs cur).toList) : x = pyStrip cur.flatten := by
  unfold joinDocs at h
  by_cases hs : pyStrip cur.flatten = []
  · rw [if_pos hs] at h; cases h
  · rw [if_neg hs] at h
    simpa using h

/-- `sep ++ drop sep.length l = l` whenever `sep` is a Boolean prefix of
`l`. -/
theorem isPrefixOf_append : ∀ {sep l : Str}, sep.isPrefixOf l = true →
    sep ++ l.drop sep.length = l := by
  intro sep
  induction sep with
  | nil => intro l _; simp
  | cons c cs ih =>
    intro l h
    cases l with
    | nil => simp [List.isPrefixOf] at h
    | cons d ds =>
      simp only [List.isPrefixOf, Bool.and_eq_true, beq_iff_eq] at h
      obtain ⟨rfl, h2⟩ := h
      simp only [List.cons_append, List.length_cons, List.drop_succ_cons]
      rw [ih h2]

/-- The reconstruction of a piece list: the head, then each further piece
with the separator reattached. -/
def joinSep (sep : Str) : List Str → Str
  | [] => []
  | p :: ps => p ++ (ps.map (fun q => sep ++ q)).flatten

theorem splitOnGoF_ne_nil (sep : Str) :
    ∀ (fuel : Nat) (rem acc : Str), splitOnGoF sep fuel rem acc ≠ [] := by
  intro fuel
  induction fuel with
  | zero => intro rem acc; simp [splitOnGoF]
  | succ f ih =>
    intro rem acc
    cases rem with
    | nil => simp [splitOnGoF]
    | cons c rest =>
      unfold splitOnGoF
      by_cases hp : sep.isPrefixOf (c :: rest)
      · rw [if_pos hp]; simp
      · rw [if_neg hp]; exact ih rest (c :: acc)

theorem joinSep_cons_flatten (sep : Str) :
    ∀ {ps : List Str}, ps ≠ [] →
      (ps.map (fun q => sep ++ q)).flatten = sep ++ joinSep sep ps := by
  intro ps hps
  cases ps with
  | nil => exact absurd rfl hps
  | cons p ps2 =>
    simp only [List.map_cons, List.flatten_cons, joinSep]
    rw [List.append_assoc]

theorem splitOnGoF_join (sep : Str) (hsep : 1 ≤ sep.length) :
    ∀ (fuel : Nat) (rem acc : Str), rem.length < fuel →
      joinSep sep (splitOnGoF sep fuel rem acc) = acc.reverse ++ rem := by
  intro fuel
  induction fuel with
  | zero => intro rem acc h; omega
  | succ f ih =>
    intro rem acc h
    cases rem with
    | nil => simp [splitOnGoF, joinSep]
    | cons c rest =>
      unfold splitOnGoF
      by_cases hp : sep.isPrefixOf (c :: rest)
      · rw [if_pos hp]
        have hdrop : rest.drop (sep.length - 1) = (c :: rest).drop sep.length := by
          obtain ⟨k, hk⟩ : ∃ k, sep.length = k + 1 :=
            ⟨sep.length - 1, by omega⟩
          rw [hk]
          simp
        have hlt : (rest.drop (sep.length - 1)).length < f := by
          rw [List.length_drop]
          simp only [List.length_cons] at h
          omega
        have hne := splitOnGoF_ne_nil sep f (rest.drop (sep.length - 1)) []
        simp only [joinSep]
        rw [joinSep_cons_flatten sep hne]
        rw [ih _ _ hlt]
        simp only [List.reverse_nil, List.nil_append]
        rw [hdrop]
        rw [isPrefixOf_append hp]
      · rw [if_neg hp]
        rw [ih rest (c :: acc) (by simp at h ⊢; omega)]
        simp

theorem flatten_filter_ne_nil {α : Type} :
    ∀ (l : List (List α)), (l.filter (fun s => !s.isEmpty)).flatten = l.flatten := by
  intro l
  induction l with
  | nil => rfl
  | cons a rest ih =>
    by_cases ha : a.isEmpty
    · have : a = [] := by cases a; rfl; simp [List.isEmpty] at ha
      subst this
      simp only [List.filter_cons]
      simpa using ih
    · simp only [List.filter_cons]
      rw [if_pos (by simp [ha])]
      simp only [List.flatten_cons, ih]

/-- Splits concatenate back to the input text (separators are kept). -/
theorem splitWithSep_flatten (sep text : Str) (hsep : 1 ≤ sep.length) :
    (splitWithSep sep text).flatten = text := by
  unfold splitWithSep
  cases hs : pySplitOn sep text with
  | nil => exact absurd hs (splitOnGoF_ne_nil sep _ text [])
  | cons p ps =>
    rw [flatten_filter_ne_nil]
    have hj : joinSep sep (p :: ps) = text := by
      have := splitOnGoF_join sep hsep (text.length + 1) text [] (by omega)
      unfold pySplitOn at hs
      rw [hs] at this
      simpa using this
    simpa [joinSep] using hj

theorem flatten_map_singleton {α : Type} (l : List α) :
    (l.map (fun x => [x])).flatten = l := by
  induction l with
  | nil => rfl
  | cons a rest ih => simp [ih]

/-- The current document list shrinks only from the front in a successful
popping loop. -/
theorem popLoop_suffix (cs co lenD : Int) :
    ∀ (cur : List Str) (total : Int) (pp : List Str × Int),
      popLoop cs co lenD cur total = .ok pp → ∃ u, cur = u ++ pp.1 := by
  intro cur
  induction cur with
  | nil =>
    intro total pp hp
    unfold popLoop at hp
    by_cases hc : total > co ∨ (total + lenD > cs ∧ total > 0)
    · rw [if_pos hc] at hp
      cases hp
    · rw [if_neg hc] at hp
      cases hp
      exact ⟨[], rfl⟩
  | cons d rest ih =>
    intro total pp hp
    unfold popLoop at hp
    by_cases hc : total > co ∨ (total + lenD > cs ∧ total > 0)
    · rw [if_pos hc] at hp
      obtain ⟨u, hu⟩ := ih _ _ hp
      exact ⟨d :: u, by rw [List.cons_append, ← hu]⟩
    · rw [if_neg hc] at hp
      cases hp
      exact ⟨[], rfl⟩

/-- An errored merge state absorbs the rest of the fold. -/
theorem mergeFold_error (cs co : Int) (e : String) :
    ∀ splits : List Str, splits.foldl (mergeStep cs co) (.error e) = .error e := by
  intro splits
  induction splits with
  | nil => rfl
  | cons d rest ih =>
    simp only [List.foldl_cons]
    exact ih

/-- Destructor of a successful merge: the fold succeeded and the output is the
emitted documents plus the final joined pending document. -/
theorem mergeSplits_ok {cs co : Int} {splits out : List Str}
    (h : mergeSplits cs co splits = .ok out) :
    ∃ st, splits.foldl (mergeStep cs co) (.ok ([], [], 0)) = .ok st ∧
      out = st.1 ++ (joinDocs st.2.1).toList := by
  unfold mergeSplits at h
  cases hF : splits.foldl (mergeStep cs co) (.ok ([], [], 0)) with
  | error e =>
    rw [hF] at h
    cases h
  | ok st =>
    rw [hF] at h
    cases h
    exact ⟨st, rfl, rfl⟩

/-- Destructor of a successful bad-split step of the split loop. -/
theorem splitLoop_cons_ok {cs co : Int} {recur : Str → Except String (List Str)}
    {noNewSeps : Bool} {s : Str} {rest good out : List Str}
    (hlen : ¬((s.length : Int) < cs))
    (hf : splitLoop cs co recur noNewSeps (s :: rest) good = .ok out) :
    ∃ pre mid tl,
      (if good.isEmpty then Except.ok [] else mergeSplits cs co good) = .ok pre ∧
      (if noNewSeps then Except.ok [s] else recur s) = .ok mid ∧
      splitLoop cs co recur noNewSeps rest [] = .ok tl ∧
      out = pre ++ mid ++ tl := by
  unfold splitLoop at hf
  rw [if_neg hlen] at hf
  cases hP : (if good.isEmpty then Except.ok ([] : List Str)
      else mergeSplits cs co good) with
  | error e =>
    rw [hP] at hf
    cases hf
  | ok pre =>
    rw [hP] at hf
    cases hM : (if noNewSeps then Except.ok [s] else recur s) with
    | error e =>
      rw [hM] at hf
      cases hf
    | ok mid =>
      rw [hM] at hf
      cases hT : splitLoop cs co recur noNewSeps rest [] with
      | error e =>
        rw [hT] at hf
        cases hf
      | ok tl =>
        rw [hT] at hf
        cases hf
        exact ⟨pre, mid, tl, rfl, rfl, rfl, rfl⟩

/-- Invariant of the merge fold: if the fold succeeds, every emitted document,
and the stripped concatenation of every contiguous window of the pending
current list, is a contiguous segment of the ambient text `T`. -/
theorem mergeFold_contig {T : Str} (cs co : Int) :
    ∀ (splits docs cur : List Str) (total : Int) (st : List Str × List Str × Int),
      (∀ w : List Str, Contig w (cur ++ splits) → Contig w.flatten T) →
      (∀ x ∈ docs, Contig x T) →
      splits.foldl (mergeStep cs co) (.ok (docs, cur, total)) = .ok st →
      (∀ x ∈ st.1, Contig x T) ∧
      (∀ w : List Str, Contig w st.2.1 → Contig w.flatten T) := by
  intro splits
  induction splits with
  | nil =>
    intro docs cur total st hwin hdocs hf
    cases hf
    exact ⟨hdocs, fun w hw => hwin w (by simpa using hw)⟩
  | cons d rest ih =>
    intro docs cur total st hwin hdocs hf
    simp only [List.foldl_cons] at hf
    have hstep : mergeStep cs co (.ok (docs, cur, total)) d =
        (if total + (d.length : Int) > cs then
          if cur.isEmpty then Except.ok (docs, cur ++ [d], total + (d.length : Int))
          else
            match popLoop cs co (d.length : Int) cur total with
            | .error e => .error e
            | .ok pp =>
              .ok (docs ++ (joinDocs cur).toList, pp.1 ++ [d],
                pp.2 + (d.length : Int))
        else Except.ok (docs, cur ++ [d], total + (d.length : Int))) := rfl
    by_cases h1 : total + (d.length : Int) > cs
    · by_cases h2 : cur.isEmpty
      · rw [hstep, if_pos h1, if_pos h2] at hf
        exact ih _ _ _ _ (fun w hw => hwin w (by simpa using hw)) hdocs hf
      · cases hpp : popLoop cs co (d.length : Int) cur total with
        | error e =>
          rw [hstep, if_pos h1, if_neg h2, hpp] at hf
          have hf2 : List.foldl (mergeStep cs co) (Except.error e) rest =
              Except.ok st := hf
          rw [mergeFold_error] at hf2
          cases hf2
        | ok pp =>
          rw [hstep, if_pos h1, if_neg h2, hpp] at hf
          have hf2 : List.foldl (mergeStep cs co)
              (Except.ok (docs ++ (joinDocs cur).toList, pp.1 ++ [d],
                pp.2 + (d.length : Int))) rest = Except.ok st := hf
          refine ih _ _ _ _ ?_ ?_ hf2
          · intro w hw
            obtain ⟨u0, hu0⟩ := popLoop_suffix cs co (d.length : Int) cur total pp hpp
            refine hwin w ?_
            have heq : cur ++ d :: rest = u0 ++ (pp.1 ++ [d] ++ rest) := by
              conv_lhs => rw [hu0]
              simp
            rw [heq]
            exact contig_append_left u0 hw
          · intro x hx
            rcases List.mem_append.mp hx with hx | hx
            · exact hdocs x hx
            · have hx2 := joinDocs_mem hx
              subst hx2
              have hcw : Contig cur.flatten T :=
                hwin cur ⟨[], d :: rest, by simp⟩
              exact contig_trans (contig_pyStrip _) hcw
    · rw [hstep, if_neg h1] at hf
      exact ih _ _ _ _ (fun w hw => hwin w (by simpa using hw)) hdocs hf

/-- Every chunk emitted by a successful `mergeSplits` is a contiguous segment
of `T` provided every window of the splits is. -/
theorem mergeSplits_contig {T : Str} (cs co : Int) (splits out : List Str)
    (hwin : ∀ w : List Str, Contig w splits → Contig w.flatten T)
    (h : mergeSplits cs co splits = .ok out) :
    ∀ x ∈ out, Contig x T := by
  obtain ⟨st, hF, hout⟩ := mergeSplits_ok h
  subst hout
  have hc := mergeFold_contig cs co splits [] [] 0 st
    (fun w hw => hwin w (by simpa using hw)) (by intro x hx; cases hx) hF
  intro x hx
  rcases List.mem_append.mp hx with hx | hx
  · exact hc.1 x hx
  · have hx2 := joinDocs_mem hx
    subst hx2
    exact contig_trans (contig_pyStrip _)
      (hc.2 _ (contig_refl _))

/-- A successful split loop only emits contiguous segments of `T`. -/
theorem splitLoop_contig {T : Str} (cs co : Int)
    (recur : Str → Except String (List Str)) (noNewSeps : Bool)
    (hrec : ∀ s, Contig s T → ∀ out2, recur s = .ok out2 → ∀ c ∈ out2, Contig c T) :
    ∀ (splits good out : List Str),
      (∀ w : List Str, Contig w (good ++ splits) → Contig w.flatten T) →
      splitLoop cs co recur noNewSeps splits good = .ok out →
      ∀ c ∈ out, Contig c T := by
  intro splits
  induction splits with
  | nil =>
    intro good out hwin hf c hc
    unfold splitLoop at hf
    by_cases hg : good.isEmpty
    · rw [if_pos hg] at hf
      cases hf
      cases hc
    · rw [if_neg hg] at hf
      exact mergeSplits_contig cs co good out
        (fun w hw => hwin w (by simpa using hw)) hf c hc
  | cons s rest ih =>
    intro good out hwin hf c hc
    by_cases hlen : (s.length : Int) < cs
    · unfold splitLoop at hf
      rw [if_pos hlen] at hf
      exact ih (good ++ [s]) out
        (fun w hw => hwin w (by simpa [List.append_assoc] using hw)) hf c hc
    · obtain ⟨pre, mid, tl, hP, hM, hT, hout⟩ := splitLoop_cons_ok hlen hf
      subst hout
      have hsT : Contig s T := by
        have h1 : Contig [s] (good ++ s :: rest) := ⟨good, rest, by simp⟩
        have := hwin [s] h1
        simpa using this
      rcases List.mem_append.mp hc with hc | hc
      · rcases List.mem_append.mp hc with hc | hc
        · by_cases hg : good.isEmpty
          · rw [if_pos hg] at hP
            cases hP
            cases hc
          · rw [if_neg hg] at hP
            refine mergeSplits_contig cs co good pre (fun w hw => hwin w ?_) hP c hc
            exact contig_trans hw ⟨[], s :: rest, by simp⟩
        · by_cases hn : noNewSeps
          · rw [if_pos hn] at hM
            cases hM
            rcases List.mem_singleton.mp hc with rfl
            exact hsT
          · rw [if_neg hn] at hM
            exact hrec s hsT mid hM c hc
      · refine ih [] tl (fun w hw => hwin w ?_) hT c hc
        exact contig_trans (by simpa using hw) ⟨good ++ [s], [], by simp⟩

/-- Every chunk produced by a successful run of the recursive splitter is a
contiguous segment of the input text. -/
theorem splitTextF_contig (cs co : Int) :
    ∀ (fuel : Nat) (seps : List Str) (text : Str) (out : List Str),
      splitTextF cs co fuel seps text = .ok out →
      ∀ c ∈ out, Contig c text := by
  intro fuel
  induction fuel with
  | zero =>
    intro seps text out hf c hc
    unfold splitTextF at hf
    cases hf
    rcases List.mem_singleton.mp hc with rfl
    exact contig_refl _
  | succ f ih =>
    intro seps text out hf c hc
    have hflat : (if (chooseSep seps text).1.isEmpty then
        (text.map (fun ch => [ch])).filter (fun s => !s.isEmpty)
      else splitWithSep (chooseSep seps text).1 text).flatten = text := by
      by_cases hch : (chooseSep seps text).1.isEmpty
      · rw [if_pos hch, flatten_filter_ne_nil, flatten_map_singleton]
      · rw [if_neg hch]
        refine splitWithSep_flatten _ text ?_
        cases hc1 : (chooseSep seps text).1 with
        | nil => rw [hc1] at hch; simp at hch
        | cons a b => simp [hc1]
    have hf' : splitLoop cs co (splitTextF cs co f (chooseSep seps text).2)
        (chooseSep seps text).2.isEmpty
        (if (chooseSep seps text).1.isEmpty then
          (text.map (fun ch => [ch])).filter (fun s => !s.isEmpty)
        else splitWithSep (chooseSep seps text).1 text) [] = .ok out := hf
    refine splitLoop_contig cs co _ _
      (fun s hs out2 h2 c2 hc2 => contig_trans (ih _ s out2 h2 c2 hc2) hs)
      _ [] out (fun w hw => ?_) hf' c hc
    simp only [List.nil_append] at hw
    have h2 := contig_flatten hw
    rw [hflat] at h2
    exact h2

/-- Every chunk of a successful `chunk_text_recursive` run is a contiguous
substring of the input text. -/
theorem chunk_contig {text : Str} {cs co : Int} {chs : List Str} {c : Str}
    (h : chunk_text_recursive text cs co = .ok chs) (hc : c ∈ chs) :
    Contig c text := by
  unfold chunk_text_recursive at h
  by_cases h0 : text = [] ∨ pyStrip text = []
  · rw [if_pos h0] at h
    cases h
    cases hc
  · rw [if_neg h0] at h
    by_cases h1 : co > cs
    · rw [if_pos h1] at h; cases h
    · rw [if_neg h1] at h
      unfold split_text at h
      exact splitTextF_contig cs co _ _ text chs h c hc

/-- C9, amended: exact reconstruction fails (boundary whitespace is stripped
and overlap may be dropped); what holds is that every chunk stored for a page
is a contiguous substring of that page's normalized text. -/
theorem c9_amended_substring (pages : List Page) (cs co : Int)
    (cds : List ChunkDoc) (cd : ChunkDoc)
    (h : preprocess_text pages cs co = .ok cds) (hcd : cd ∈ cds) :
    ∃ page ∈ pages, Contig cd.text (clean_text page.text) := by
  obtain ⟨page, hp, chs, hch, hmem⟩ := preprocess_mem h cd hcd
  obtain ⟨n, c, hget, rfl⟩ := pageChunkDocs_mem hmem
  exact ⟨page, hp, chunk_contig hch (List.getElem?_mem hget)⟩

/-- Witness for `c9_amended_substring` at the two-chunk page. -/
theorem c9_amended_substring_witness :
    ∃ page ∈ [twoChunkPage],
      Contig (mkChunkDoc twoChunkPage 5 2 2 0 "abc".data).text
        (clean_text page.text) :=
  c9_amended_substring [twoChunkPage] 5 2
    [mkChunkDoc twoChunkPage 5 2 2 0 "abc".data,
     mkChunkDoc twoChunkPage 5 2 2 1 "def".data]
    (mkChunkDoc twoChunkPage 5 2 2 0 "abc".data) (by rfl) (by decide)

/-!
## C8 — amended: every chunk's length is bounded by `chunk_size`

With the default separator hierarchy (which descends to single characters)
and `chunk_size ≥ 1`, every produced chunk has length at most `chunk_size`:
the merge loop keeps the pending total within the budget, and bad splits are
either recursed into at a finer separator or are single characters.
-/

/-- The total length of a list of strings, as the merge loop tracks it. -/
def sumLen : List Str → Int
  | [] => 0
  | d :: rest => (d.length : Int) + sumLen rest

theorem sumLen_nonneg : ∀ l : List Str, 0 ≤ sumLen l := by
  intro l
  induction l with
  | nil => exact le_refl 0
  | cons d rest ih => unfold sumLen; positivity

theorem sumLen_append : ∀ (a b : List Str), sumLen (a ++ b) = sumLen a + sumLen b := by
  intro a b
  induction a with
  | nil => simp [sumLen]
  | cons d rest ih => simp [sumLen, ih]; ring

theorem flatten_length_sumLen : ∀ l : List Str, ((l.flatten).length : Int) = sumLen l := by
  intro l
  induction l with
  | nil => rfl
  | cons d rest ih => simp [sumLen, ← ih]

theorem pyStrip_length_le (s : Str) : (pyStrip s).length ≤ s.length :=
  contig_length_le (contig_pyStrip s)

/-- After a successful popping loop, the tracked total matches the pending
list, and either the next split fits or the pending list was emptied. -/
theorem popLoop_spec (cs co lenD : Int) :
    ∀ (cur : List Str) (total : Int) (pp : List Str × Int), total = sumLen cur →
      popLoop cs co lenD cur total = .ok pp →
      pp.2 = sumLen pp.1 ∧ (pp.2 + lenD ≤ cs ∨ pp.2 = 0) := by
  intro cur
  induction cur with
  | nil =>
    intro total pp h hp
    unfold popLoop at hp
    by_cases hc : total > co ∨ (total + lenD > cs ∧ total > 0)
    · rw [if_pos hc] at hp
      cases hp
    · rw [if_neg hc] at hp
      cases hp
      exact ⟨h, Or.inr h⟩
  | cons d rest ih =>
    intro total pp h hp
    unfold popLoop at hp
    by_cases hc : total > co ∨ (total + lenD > cs ∧ total > 0)
    · rw [if_pos hc] at hp
      refine ih _ _ ?_ hp
      rw [h]
      show ((d.length : Int) + sumLen rest) - (d.length : Int) = sumLen rest
      ring
    · rw [if_neg hc] at hp
      cases hp
      refine ⟨h, ?_⟩
      push_neg at hc
      by_cases h2 : total + lenD > cs
      · right
        have h3 := hc.2 h2
        have hnn : 0 ≤ total := h ▸ sumLen_nonneg (d :: rest)
        omega
      · left
        omega

/-- The invariant of the merge fold: the tracked total equals the pending
length sum and stays within the budget, and every emitted document fits. -/
def MergeInv (cs : Int) (st : List Str × List Str × Int) : Prop :=
  st.2.2 = sumLen st.2.1 ∧ st.2.2 ≤ cs ∧ ∀ x ∈ st.1, (x.length : Int) ≤ cs

theorem sumLen_snoc (cur : List Str) (d : Str) :
    sumLen (cur ++ [d]) = sumLen cur + (d.length : Int) := by
  rw [sumLen_append]
  show sumLen cur + ((d.length : Int) + 0) = sumLen cur + (d.length : Int)
  ring

theorem mergeStep_inv {cs : Int} (co : Int) (hcs : 1 ≤ cs) {docs cur : List Str}
    {total : Int} {d : Str} {st : List Str × List Str × Int}
    (hd : (d.length : Int) < cs)
    (h1 : total = sumLen cur) (h2 : total ≤ cs)
    (h3 : ∀ x ∈ docs, (x.length : Int) ≤ cs)
    (hstep : mergeStep cs co (.ok (docs, cur, total)) d = .ok st) :
    MergeInv cs st := by
  have heq : mergeStep cs co (.ok (docs, cur, total)) d =
      (if total + (d.length : Int) > cs then
        if cur.isEmpty then Except.ok (docs, cur ++ [d], total + (d.length : Int))
        else
          match popLoop cs co (d.length : Int) cur total with
          | .error e => .error e
          | .ok pp =>
            .ok (docs ++ (joinDocs cur).toList, pp.1 ++ [d],
              pp.2 + (d.length : Int))
      else Except.ok (docs, cur ++ [d], total + (d.length : Int))) := rfl
  rw [heq] at hstep
  by_cases hb : total + (d.length : Int) > cs
  · rw [if_pos hb] at hstep
    by_cases he : cur.isEmpty
    · -- impossible: an empty pending list means total = 0, so the single
      -- good split d would exceed cs, contradicting its length bound
      exfalso
      have hnil : cur = [] := by
        cases cur with
        | nil => rfl
        | cons a b => simp at he
      subst hnil
      have h0 : total = 0 := h1
      omega
    · rw [if_neg he] at hstep
      cases hpp : popLoop cs co (d.length : Int) cur total with
      | error e =>
        rw [hpp] at hstep
        cases hstep
      | ok pp =>
        rw [hpp] at hstep
        cases hstep
        have hp := popLoop_spec cs co (d.length : Int) cur total pp h1 hpp
        refine ⟨?_, ?_, ?_⟩
        · show pp.2 + (d.length : Int) = sumLen (pp.1 ++ [d])
          rw [sumLen_snoc, hp.1]
        · show pp.2 + (d.length : Int) ≤ cs
          rcases hp.2 with hle | hz
          · exact hle
          · rw [hz]; omega
        · intro x hx
          rcases List.mem_append.mp hx with hx | hx
          · exact h3 x hx
          · have hx2 := joinDocs_mem hx
            subst hx2
            have hsl := pyStrip_length_le cur.flatten
            have hf := flatten_length_sumLen cur
            omega
  · rw [if_neg hb] at hstep
    cases hstep
    refine ⟨?_, ?_, h3⟩
    · show total + (d.length : Int) = sumLen (cur ++ [d])
      rw [sumLen_snoc, h1]
    · show total + (d.length : Int) ≤ cs
      omega

theorem mergeFold_inv {cs : Int} (co : Int) (hcs : 1 ≤ cs) :
    ∀ (splits : List Str) (docs cur : List Str) (total : Int)
      (st : List Str × List Str × Int),
      (∀ d ∈ splits, (d.length : Int) < cs) →
      total = sumLen cur → total ≤ cs →
      (∀ x ∈ docs, (x.length : Int) ≤ cs) →
      splits.foldl (mergeStep cs co) (.ok (docs, cur, total)) = .ok st →
      MergeInv cs st := by
  intro splits
  induction splits with
  | nil =>
    intro docs cur total st _ h1 h2 h3 hf
    cases hf
    exact ⟨h1, h2, h3⟩
  | cons d rest ih =>
    intro docs cur total st hd h1 h2 h3 hf
    simp only [List.foldl_cons] at hf
    cases hs : mergeStep cs co (.ok (docs, cur, total)) d with
    | error e =>
      rw [hs] at hf
      rw [mergeFold_error] at hf
      cases hf
    | ok st1 =>
      rw [hs] at hf
      have hinv := mergeStep_inv co hcs (hd d (List.mem_cons_self _ _)) h1 h2 h3 hs
      exact ih st1.1 st1.2.1 st1.2.2 st
        (fun x hx => hd x (List.mem_cons_of_mem _ hx)) hinv.1 hinv.2.1 hinv.2.2 hf

/-- Every chunk emitted by a successful `mergeSplits` from splits of length
`< cs` has length `≤ cs`. -/
theorem mergeSplits_bound {cs co : Int} (hcs : 1 ≤ cs) (splits out : List Str)
    (hd : ∀ d ∈ splits, (d.length : Int) < cs)
    (h : mergeSplits cs co splits = .ok out) :
    ∀ x ∈ out, (x.length : Int) ≤ cs := by
  obtain ⟨st, hF, hout⟩ := mergeSplits_ok h
  subst hout
  have hinv := mergeFold_inv co hcs splits [] [] 0 st hd rfl (by omega)
    (fun x hx => absurd hx (List.not_mem_nil x)) hF
  intro x hx
  rcases List.mem_append.mp hx with hx2 | hx2
  · exact hinv.2.2 x hx2
  · have hx3 := joinDocs_mem hx2
    subst hx3
    have hsl := pyStrip_length_le st.2.1.flatten
    have hf := flatten_length_sumLen st.2.1
    have h1 := hinv.1
    have h2 := hinv.2.1
    omega

/-- The separator list ends with the empty separator (true of the default
list and preserved by the splitter's separator selection). -/
def SepsOK (seps : List Str) : Prop := seps = [] ∨ seps.getLast? = some []

theorem sepsOK_of_cons {s : Str} {rest : List Str} (hr : rest ≠ [])
    (h : SepsOK (s :: rest)) : SepsOK rest := by
  rcases h with h | h
  · cases h
  · right
    rw [← h]
    cases rest with
    | nil => exact absurd rfl hr
    | cons a b => rfl

/-- Under `SepsOK`, the separator selection yields either an empty separator
with no finer ones (the character level), or a strictly shorter remaining
separator list. -/
theorem chooseSep_spec : ∀ (seps : List Str) (text : Str), SepsOK seps →
    ((chooseSep seps text).2 = [] → (chooseSep seps text).1 = []) ∧
    SepsOK (chooseSep seps text).2 ∧
    ((chooseSep seps text).2 ≠ [] → (chooseSep seps text).2.length < seps.length) := by
  intro seps
  induction seps with
  | nil =>
    intro text _
    exact ⟨fun _ => rfl, Or.inl rfl, fun h => absurd rfl h⟩
  | cons s rest ih =>
    intro text hok
    unfold chooseSep
    by_cases hse : s.isEmpty
    · rw [if_pos hse]
      exact ⟨fun _ => rfl, Or.inl rfl, fun h => absurd rfl h⟩
    · rw [if_neg hse]
      have hsne : s ≠ [] := by
        cases s
        · simp at hse
        · simp
      have hrne : rest ≠ [] := by
        intro hr0
        rcases hok with h | h
        · cases h
        · rw [hr0] at h
          simp only [List.getLast?_singleton, Option.some.injEq] at h
          exact hsne h
      by_cases hocc : occursIn s text
      · rw [if_pos hocc]
        refine ⟨fun h => absurd h hrne, sepsOK_of_cons hrne hok, fun _ => ?_⟩
        simp only [List.length_cons]
        omega
      · rw [if_neg hocc]
        obtain ⟨a, b, hr⟩ : ∃ a b, rest = a :: b := by
          cases rest with
          | nil => exact absurd rfl hrne
          | cons a b => exact ⟨a, b, rfl⟩
        have hih := ih text (sepsOK_of_cons hrne hok)
        rw [hr] at hih ⊢
        refine ⟨hih.1, hih.2.1, fun h => ?_⟩
        have hlen := hih.2.2 h
        simp only [List.length_cons] at hlen ⊢
        omega

/-- A successful split loop emits only chunks of length `≤ cs`, provided good
splits are shorter than `cs`, direct appends (no finer separators) are
bounded, and the recursion is bounded. -/
theorem splitLoop_bound {cs co : Int} (hcs : 1 ≤ cs)
    (recur : Str → Except String (List Str)) (noNewSeps : Bool)
    (hrec : noNewSeps = false → ∀ s out2, recur s = .ok out2 →
      ∀ c ∈ out2, (c.length : Int) ≤ cs) :
    ∀ (splits good out : List Str),
      (∀ g ∈ good, (g.length : Int) < cs) →
      (noNewSeps = true → ∀ s ∈ splits, (s.length : Int) ≤ cs) →
      splitLoop cs co recur noNewSeps splits good = .ok out →
      ∀ c ∈ out, (c.length : Int) ≤ cs := by
  intro splits
  induction splits with
  | nil =>
    intro good out hg _ hf c hc
    unfold splitLoop at hf
    by_cases hge : good.isEmpty
    · rw [if_pos hge] at hf
      cases hf
      cases hc
    · rw [if_neg hge] at hf
      exact mergeSplits_bound hcs good out hg hf c hc
  | cons s rest ih =>
    intro good out hg hbad hf c hc
    by_cases hlen : (s.length : Int) < cs
    · unfold splitLoop at hf
      rw [if_pos hlen] at hf
      refine ih (good ++ [s]) out ?_ ?_ hf c hc
      · intro g hgm
        rcases List.mem_append.mp hgm with hgm | hgm
        · exact hg g hgm
        · rcases List.mem_singleton.mp hgm with rfl
          exact hlen
      · exact fun hn t ht => hbad hn t (List.mem_cons_of_mem _ ht)
    · obtain ⟨pre, mid, tl, hP, hM, hT, hout⟩ := splitLoop_cons_ok hlen hf
      subst hout
      rcases List.mem_append.mp hc with hc | hc
      · rcases List.mem_append.mp hc with hc | hc
        · by_cases hge : good.isEmpty
          · rw [if_pos hge] at hP
            cases hP
            cases hc
          · rw [if_neg hge] at hP
            exact mergeSplits_bound hcs good pre hg hP c hc
        · cases hn : noNewSeps with
          | true =>
            rw [hn, if_pos rfl] at hM
            cases hM
            rcases List.mem_singleton.mp hc with rfl
            exact hbad hn c (List.mem_cons_self _ _)
          | false =>
            rw [hn, if_neg (by simp)] at hM
            exact hrec hn s mid hM c hc
      · exact ih [] tl (fun g hgm => absurd hgm (List.not_mem_nil g))
          (fun hn t ht => hbad hn t (List.mem_cons_of_mem _ ht)) hT c hc

/-- The recursive splitter respects the chunk-size bound under `SepsOK` on
success. -/
theorem splitTextF_bound {cs co : Int} (hcs : 1 ≤ cs) :
    ∀ (fuel : Nat) (seps : List Str) (text : Str) (out : List Str), SepsOK seps →
      seps.length < fuel →
      splitTextF cs co fuel seps text = .ok out →
      ∀ c ∈ out, (c.length : Int) ≤ cs := by
  intro fuel
  induction fuel with
  | zero =>
    intro seps text out _ hlt
    omega
  | succ f ih =>
    intro seps text out hok hlt hf c hc
    have hf' : splitLoop cs co (splitTextF cs co f (chooseSep seps text).2)
        (chooseSep seps text).2.isEmpty
        (if (chooseSep seps text).1.isEmpty then
          (text.map (fun ch => [ch])).filter (fun s => !s.isEmpty)
        else splitWithSep (chooseSep seps text).1 text) [] = .ok out := hf
    have hspec := chooseSep_spec seps text hok
    refine splitLoop_bound hcs _ _ ?_ _ [] out ?_ ?_ hf' c hc
    · intro hne s out2 h2 c2 hc2
      have hne2 : (chooseSep seps text).2 ≠ [] := by
        intro h
        rw [h] at hne
        simp at hne
      refine ih (chooseSep seps text).2 s out2 hspec.2.1 ?_ h2 c2 hc2
      have := hspec.2.2 hne2
      omega
    · intro g hgm
      cases hgm
    · intro hemp t ht
      have h2 : (chooseSep seps text).2 = [] := by
        cases h : (chooseSep seps text).2
        · rfl
        · rw [h] at hemp; simp at hemp
      have h1 := hspec.1 h2
      rw [if_pos (by rw [h1]; rfl)] at ht
      obtain ⟨t2, ht2⟩ := List.mem_filter.mp ht
      obtain ⟨ch, _, rfl⟩ := List.mem_map.mp t2
      simp
      omega

/-- C8, amended: with `chunk_size ≥ 1`, every chunk produced by
`chunk_text_recursive` has length at most `chunk_size` — the default
separator hierarchy descends to single characters, so not even an
indivisible unit forces an overshoot; it is the overlap clause of the claim
that fails (see the counterexample). -/
theorem c8_amended_bound (text : Str) (cs co : Int) (chs : List Str) (c : Str)
    (hcs : 1 ≤ cs) (h : chunk_text_recursive text cs co = .ok chs)
    (hc : c ∈ chs) : (c.length : Int) ≤ cs := by
  unfold chunk_text_recursive at h
  by_cases h0 : text = [] ∨ pyStrip text = []
  · rw [if_pos h0] at h
    cases h
    cases hc
  · rw [if_neg h0] at h
    by_cases h1 : co > cs
    · rw [if_pos h1] at h; cases h
    · rw [if_neg h1] at h
      unfold split_text at h
      refine splitTextF_bound hcs _ defaultSeparators text chs ?_
        (by simp [defaultSeparators]) h c hc
      right
      rfl

/-- Witness for `c8_amended_bound` on the two-chunk run. -/
theorem c8_amended_bound_witness : (("abc".data : Str).length : Int) ≤ 5 :=
  c8_amended_bound "abc def".data 5 2 ["abc".data, "def".data] "abc".data
    (by decide) (by rfl) (by decide)

/-!
## C5 — amended: the only fail-fast validation

The repository performs no argument validation of its own.  The single
fail-fast check on the chunking path is the `TextSplitter` constructor's
`chunk_overlap > chunk_size` (`ValueError`).  Conversely, for a non-negative
overlap within the budget the pipeline always completes: the popping loop
can only fault when `chunk_overlap < 0`, because with a non-negative overlap
an emptied pending list has `total = 0` and the loop condition is false.
`overlap = chunk_size` and non-positive `chunk_size` pass silently (see the
counterexample), and a negative overlap is not rejected up front either — it
can instead surface later as an `IndexError` inside the merge loop, as the
run on `("abcdef", 3, -1)` shows.
-/

/-- With a non-negative overlap the popping loop cannot fault: when the
pending list empties, the tracked total is `0` and the loop condition is
false. -/
theorem popLoop_isOk (cs co lenD : Int) (hco : 0 ≤ co) :
    ∀ (cur : List Str) (total : Int), total = sumLen cur →
      ∃ pp, popLoop cs co lenD cur total = .ok pp ∧ pp.2 = sumLen pp.1 := by
  intro cur
  induction cur with
  | nil =>
    intro total h
    have h0 : total = 0 := h
    unfold popLoop
    rw [if_neg (by omega : ¬(total > co ∨ (total + lenD > cs ∧ total > 0)))]
    exact ⟨([], total), rfl, h⟩
  | cons d rest ih =>
    intro total h
    unfold popLoop
    by_cases hc : total > co ∨ (total + lenD > cs ∧ total > 0)
    · rw [if_pos hc]
      refine ih _ ?_
      rw [h]
      show ((d.length : Int) + sumLen rest) - (d.length : Int) = sumLen rest
      ring
    · rw [if_neg hc]
      exact ⟨(d :: rest, total), rfl, h⟩

/-- With a non-negative overlap a merge step from a coherent state cannot
fault, and the new total again matches the pending list. -/
theorem mergeStep_ok {cs co : Int} (hco : 0 ≤ co) {docs cur : List Str}
    {total : Int} (h1 : total = sumLen cur) (d : Str) :
    ∃ st, mergeStep cs co (.ok (docs, cur, total)) d = .ok st ∧
      st.2.2 = sumLen st.2.1 := by
  have heq : mergeStep cs co (.ok (docs, cur, total)) d =
      (if total + (d.length : Int) > cs then
        if cur.isEmpty then Except.ok (docs, cur ++ [d], total + (d.length : Int))
        else
          match popLoop cs co (d.length : Int) cur total with
          | .error e => .error e
          | .ok pp =>
            .ok (docs ++ (joinDocs cur).toList, pp.1 ++ [d],
              pp.2 + (d.length : Int))
      else Except.ok (docs, cur ++ [d], total + (d.length : Int))) := rfl
  rw [heq]
  by_cases hb : total + (d.length : Int) > cs
  · rw [if_pos hb]
    by_cases he : cur.isEmpty
    · rw [if_pos he]
      refine ⟨_, rfl, ?_⟩
      show total + (d.length : Int) = sumLen (cur ++ [d])
      rw [sumLen_snoc, h1]
    · rw [if_neg he]
      obtain ⟨pp, hpp, hps⟩ := popLoop_isOk cs co (d.length : Int) hco cur total h1
      rw [hpp]
      refine ⟨_, rfl, ?_⟩
      show pp.2 + (d.length : Int) = sumLen (pp.1 ++ [d])
      rw [sumLen_snoc, hps]
  · rw [if_neg hb]
    refine ⟨_, rfl, ?_⟩
    show total + (d.length : Int) = sumLen (cur ++ [d])
    rw [sumLen_snoc, h1]

/-- With a non-negative overlap the whole merge fold succeeds. -/
theorem mergeFold_ok {cs co : Int} (hco : 0 ≤ co) :
    ∀ (splits : List Str) (docs cur : List Str) (total : Int),
      total = sumLen cur →
      ∃ st, splits.foldl (mergeStep cs co) (.ok (docs, cur, total)) = .ok st ∧
        st.2.2 = sumLen st.2.1 := by
  intro splits
  induction splits with
  | nil =>
    intro docs cur total h1
    exact ⟨(docs, cur, total), rfl, h1⟩
  | cons d rest ih =>
    intro docs cur total h1
    simp only [List.foldl_cons]
    obtain ⟨st1, hs1, hsum⟩ := mergeStep_ok hco h1 d
    rw [hs1]
    exact ih st1.1 st1.2.1 st1.2.2 hsum

/-- With a non-negative overlap `_merge_splits` always succeeds. -/
theorem mergeSplits_isOk {cs co : Int} (hco : 0 ≤ co) (splits : List Str) :
    ∃ out, mergeSplits cs co splits = .ok out := by
  obtain ⟨st, hF, _⟩ := mergeFold_ok hco splits [] [] 0 rfl
  unfold mergeSplits
  rw [hF]
  exact ⟨_, rfl⟩

/-- With a non-negative overlap the split loop always succeeds, provided the
recursive calls do. -/
theorem splitLoop_ok {cs co : Int} (hco : 0 ≤ co)
    (recur : Str → Except String (List Str)) (noNewSeps : Bool)
    (hrec : ∀ s, ∃ out, recur s = .ok out) :
    ∀ (splits good : List Str),
      ∃ out, splitLoop cs co recur noNewSeps splits good = .ok out := by
  intro splits
  induction splits with
  | nil =>
    intro good
    unfold splitLoop
    by_cases hg : good.isEmpty
    · rw [if_pos hg]
      exact ⟨[], rfl⟩
    · rw [if_neg hg]
      exact mergeSplits_isOk hco good
  | cons s rest ih =>
    intro good
    unfold splitLoop
    by_cases hlen : (s.length : Int) < cs
    · rw [if_pos hlen]
      exact ih (good ++ [s])
    · rw [if_neg hlen]
      obtain ⟨pre, hP⟩ : ∃ pre, (if good.isEmpty then Except.ok ([] : List Str)
          else mergeSplits cs co good) = .ok pre := by
        by_cases hg : good.isEmpty
        · rw [if_pos hg]
          exact ⟨[], rfl⟩
        · rw [if_neg hg]
          exact mergeSplits_isOk hco good
      obtain ⟨mid, hM⟩ : ∃ mid,
          (if noNewSeps then Except.ok [s] else recur s) = .ok mid := by
        by_cases hn : noNewSeps
        · rw [if_pos hn]
          exact ⟨[s], rfl⟩
        · rw [if_neg hn]
          exact hrec s
      obtain ⟨tl, hT⟩ := ih []
      rw [hP, hM, hT]
      exact ⟨pre ++ mid ++ tl, rfl⟩

/-- With a non-negative overlap the recursive splitter always succeeds: the
merge loop's `IndexError` is reachable only for a negative overlap. -/
theorem splitTextF_ok {cs co : Int} (hco : 0 ≤ co) :
    ∀ (fuel : Nat) (seps : List Str) (text : Str),
      ∃ out, splitTextF cs co fuel seps text = .ok out := by
  intro fuel
  induction fuel with
  | zero =>
    intro seps text
    exact ⟨[text], rfl⟩
  | succ f ih =>
    intro seps text
    exact splitLoop_ok hco (splitTextF cs co f (chooseSep seps text).2)
      (chooseSep seps text).2.isEmpty (fun s => ih (chooseSep seps text).2 s)
      (if (chooseSep seps text).1.isEmpty then
        (text.map (fun c => [c])).filter (fun s => !s.isEmpty)
      else splitWithSep (chooseSep seps text).1 text) []

/-- C5, amended: the repository code performs no argument validation of its
own, and the only fail-fast check is the splitter constructor's
`chunk_overlap > chunk_size`.  For text that is not all whitespace: chunking
fails with the constructor's `ValueError` whenever `overlap > chunk_size`,
and for any non-negative overlap within the budget it completes without
error — so `overlap = chunk_size` and non-positive `chunk_size` are accepted
silently.  A negative overlap is not rejected up front either: it can
instead fail deep inside the merge loop with an `IndexError`, as on the text
`"abcdef"` with `chunk_size = 3` and `overlap = -1`.  `top_k` is forwarded
to the persistence layer unvalidated. -/
theorem c5_amended_validation (text : Str) (cs co : Int) (h : pyStrip text ≠ []) :
    (co > cs → chunk_text_recursive text cs co =
      Except.error "Got a larger chunk overlap than chunk size, should be smaller.") ∧
    (0 ≤ co → co ≤ cs → ∃ chs, chunk_text_recursive text cs co = Except.ok chs) ∧
    chunk_text_recursive "abcdef".data 3 (-1) =
      Except.error "IndexError: list index out of range" := by
  have hne : ¬(text = [] ∨ pyStrip text = []) := by
    rintro (rfl | hs)
    · exact h rfl
    · exact h hs
  refine ⟨?_, ?_, by rfl⟩
  · intro hco
    unfold chunk_text_recursive
    rw [if_neg hne, if_pos hco]
  · intro hco hle
    unfold chunk_text_recursive
    rw [if_neg hne, if_neg (by omega : ¬(co > cs))]
    unfold split_text
    exact splitTextF_ok hco (defaultSeparators.length + 1) defaultSeparators text

/-- Witness for `c5_amended_validation`: the constructor `ValueError` at
`("hi", 3, 5)`, successful completion at `("ab cd", 3, 3)`, and the merge
loop `IndexError` at `("abcdef", 3, -1)`. -/
theorem c5_amended_validation_witness :
    chunk_text_recursive "hi".data 3 5 =
      Except.error "Got a larger chunk overlap than chunk size, should be smaller." ∧
    (∃ chs, chunk_text_recursive "ab cd".data 3 3 = Except.ok chs) ∧
    chunk_text_recursive "abcdef".data 3 (-1) =
      Except.error "IndexError: list index out of range" :=
  ⟨(c5_amended_validation "hi".data 3 5 (by decide)).1 (by decide),
   (c5_amended_validation "ab cd".data 3 3 (by decide)).2.1 (by decide) (by decide),
   (c5_amended_validation "hi".data 3 5 (by decide)).2.2⟩

end PdfRag
